import Mathlib

/-!
Verification of the CC-CEDICT import pipeline (scripts/import_cedict.py).

Python strings are modelled as `List Char` (a Python str is a sequence of
code points).  Python exceptions on the parsing path are modelled by
`Option`/`Except`: a `none`/`.error` result stands for an uncaught exception.
The vocabulary store is modelled as a list of rows in enumeration order;
SQL UPDATE mutates rows in place, INSERT appends.
-/

namespace Cedict

/-! ## Character primitives -/

/-- Lowercase ascii letters, as in the regex class `a-z`. -/
def asciiLower : List Char := "abcdefghijklmnopqrstuvwxyz".toList

/-- Uppercase ascii letters, as in the regex class `A-Z`. -/
def asciiUpper : List Char := "ABCDEFGHIJKLMNOPQRSTUVWXYZ".toList

/-- The character class `[a-züÜA-Z]` of the syllable regex in convert_syllable. -/
def classChars : List Char := asciiLower ++ asciiUpper ++ ['ü', 'Ü']

/-- Membership in the syllable letter class. -/
def lettersClass (c : Char) : Bool := classChars.contains c

/-- Python str.lower restricted to the alphabet this pipeline produces:
ascii letters, u-umlaut, and the tone-marked vowels produced by
convert_pinyin.  Other code points are returned unchanged. -/
def pyLower (c : Char) : Char :=
  match c with
  | 'A' => 'a' | 'B' => 'b' | 'C' => 'c' | 'D' => 'd' | 'E' => 'e' | 'F' => 'f'
  | 'G' => 'g' | 'H' => 'h' | 'I' => 'i' | 'J' => 'j' | 'K' => 'k' | 'L' => 'l'
  | 'M' => 'm' | 'N' => 'n' | 'O' => 'o' | 'P' => 'p' | 'Q' => 'q' | 'R' => 'r'
  | 'S' => 's' | 'T' => 't' | 'U' => 'u' | 'V' => 'v' | 'W' => 'w' | 'X' => 'x'
  | 'Y' => 'y' | 'Z' => 'z' | 'Ü' => 'ü'
  | 'Ā' => 'ā' | 'Á' => 'á' | 'Ǎ' => 'ǎ' | 'À' => 'à'
  | 'Ē' => 'ē' | 'É' => 'é' | 'Ě' => 'ě' | 'È' => 'è'
  | 'Ī' => 'ī' | 'Í' => 'í' | 'Ǐ' => 'ǐ' | 'Ì' => 'ì'
  | 'Ō' => 'ō' | 'Ó' => 'ó' | 'Ǒ' => 'ǒ' | 'Ò' => 'ò'
  | 'Ū' => 'ū' | 'Ú' => 'ú' | 'Ǔ' => 'ǔ' | 'Ù' => 'ù'
  | 'Ǖ' => 'ǖ' | 'Ǘ' => 'ǘ' | 'Ǚ' => 'ǚ' | 'Ǜ' => 'ǜ'
  | c => c

/-- Python str.upper on the tone-marked lowercase vowels (the only
characters the source applies .upper() to, in convert_syllable). -/
def pyUpper (c : Char) : Char :=
  match c with
  | 'ā' => 'Ā' | 'á' => 'Á' | 'ǎ' => 'Ǎ' | 'à' => 'À'
  | 'ē' => 'Ē' | 'é' => 'É' | 'ě' => 'Ě' | 'è' => 'È'
  | 'ī' => 'Ī' | 'í' => 'Í' | 'ǐ' => 'Ǐ' | 'ì' => 'Ì'
  | 'ō' => 'Ō' | 'ó' => 'Ó' | 'ǒ' => 'Ǒ' | 'ò' => 'Ò'
  | 'ū' => 'Ū' | 'ú' => 'Ú' | 'ǔ' => 'Ǔ' | 'ù' => 'Ù'
  | 'ǖ' => 'Ǖ' | 'ǘ' => 'Ǘ' | 'ǚ' => 'Ǚ' | 'ǜ' => 'Ǜ'
  | c => c

/-- Python str.isupper for the single characters of the syllable letter
class (only ever applied to characters of `classChars`). -/
def pyIsUpper (c : Char) : Bool := asciiUpper.contains c || c = 'Ü'

/-- The whitespace set of Python str.split, str.strip and the regex
class for whitespace (ascii part). -/
def pyIsSpace (c : Char) : Bool :=
  c = ' ' || c = '\t' || c = '\n' || c = '\x0d' || c = Char.ofNat 11 || c = Char.ofNat 12

/-- Python str.strip: drop leading and trailing whitespace. -/
def pyStrip (s : List Char) : List Char :=
  ((s.dropWhile pyIsSpace).reverse.dropWhile pyIsSpace).reverse

/-- Python str.startswith: the first argument is the pattern. -/
def startsWith : List Char → List Char → Bool
  | [], _ => true
  | _ :: _, [] => false
  | p :: ps, c :: cs => p = c && startsWith ps cs

/-- Python str.split(sep) for a one-character separator, keeping empty
pieces, as used by clean_definitions on the slash. -/
def splitOnChar (sep : Char) : List Char → List (List Char)
  | [] => [[]]
  | c :: rest =>
    if c = sep then [] :: splitOnChar sep rest
    else
      match splitOnChar sep rest with
      | t :: ts => (c :: t) :: ts
      | [] => [[c]]

/-- Helper for Python str.split() with no argument: accumulates the
current token (reversed) while scanning. -/
def splitWsAux : List Char → List Char → List (List Char)
  | [], acc => if acc = [] then [] else [acc.reverse]
  | c :: rest, acc =>
    if pyIsSpace c then
      if acc = [] then splitWsAux rest [] else acc.reverse :: splitWsAux rest []
    else splitWsAux rest (c :: acc)

/-- Python str.split() with no argument: split on runs of whitespace,
dropping empty tokens. -/
def splitWs (s : List Char) : List (List Char) := splitWsAux s []

/-- Python str.replace for a two-character pattern replaced by a single
character, scanning left to right without overlap; used for the
`u:` and `U:` umlaut escapes in convert_syllable. -/
def pyReplace2 (a b r : Char) : List Char → List Char
  | [] => []
  | [c] => [c]
  | c :: c2 :: rest =>
    if c = a && c2 = b then r :: pyReplace2 a b r rest
    else c :: pyReplace2 a b r (c2 :: rest)

/-! ## Tone converter (convert_pinyin / convert_syllable) -/

/-- The tone_map dictionary of convert_pinyin: for each eligible key the
four tone-marked forms (tones 1 to 4).  Note that the source includes
the key v, mapped to the u-umlaut marks. -/
def toneMarks (c : Char) : Option (List Char) :=
  if c = 'a' then some ['ā', 'á', 'ǎ', 'à']
  else if c = 'e' then some ['ē', 'é', 'ě', 'è']
  else if c = 'i' then some ['ī', 'í', 'ǐ', 'ì']
  else if c = 'o' then some ['ō', 'ó', 'ǒ', 'ò']
  else if c = 'u' then some ['ū', 'ú', 'ǔ', 'ù']
  else if c = 'ü' then some ['ǖ', 'ǘ', 'ǚ', 'ǜ']
  else if c = 'v' then some ['ǖ', 'ǘ', 'ǚ', 'ǜ']
  else none

/-- Python str.index for a single character, as an Option (the source
guards each .index call with a containment test). -/
def firstIdxOf (c : Char) : List Char → Option Nat
  | [] => none
  | x :: rest => if x = c then some 0 else (firstIdxOf c rest).map (· + 1)

/-- Containment of the two-character substring `ou` (`"ou" in lower`). -/
def hasOU : List Char → Bool
  | [] => false
  | [_] => false
  | c :: c2 :: rest => (c = 'o' && c2 = 'u') || hasOU (c2 :: rest)

/-- The backwards scan of convert_syllable: the last index whose
character is a key of tone_map, together with that character. -/
def lastToneIdx : List Char → Option (Nat × Char)
  | [] => none
  | c :: rest =>
    match lastToneIdx rest with
    | some (j, v) => some (j + 1, v)
    | none => if (toneMarks c).isSome then some (0, c) else none

/-- Vowel selection of convert_syllable (lines 126 to 142 of the
source): priority a, then e, then the first o when `ou` occurs, then
the last tone_map key scanning from the end. -/
def findVowel (lower : List Char) : Option (Nat × Char) :=
  match firstIdxOf 'a' lower with
  | some j => some (j, 'a')
  | none =>
    match firstIdxOf 'e' lower with
    | some j => some (j, 'e')
    | none =>
      if hasOU lower then (firstIdxOf 'o' lower).map (fun j => (j, 'o'))
      else lastToneIdx lower

/-- The regex match `^([a-züÜA-Z]+)(\d)$` of convert_syllable: a
nonempty run of class letters followed by a single digit.  Because the
class contains no digit, the greedy split is forced, so the match is
exactly this decomposition. -/
def matchLettersDigit (s : List Char) : Option (List Char × Char) :=
  match s.getLast? with
  | none => none
  | some d =>
    if d.isDigit && decide (s.dropLast ≠ []) && s.dropLast.all lettersClass
    then some (s.dropLast, d) else none

/-- convert_syllable.  The result `none` models an uncaught IndexError:
for a tone digit outside {0,1,2,3,4,5} the source evaluates
`tone_map[vowel_char][tone - 1]` past the end of the four-element list. -/
def convertSyllable (syl : List Char) : Option (List Char) :=
  let s := pyReplace2 'U' ':' 'Ü' (pyReplace2 'u' ':' 'ü' syl)
  match matchLettersDigit s with
  | none => some s
  | some (letters, d) =>
    let tone := d.toNat - 48
    if tone = 5 || tone = 0 then some letters
    else
      match findVowel (letters.map pyLower) with
      | none => some letters
      | some (j, vc) =>
        match toneMarks vc with
        | none => some letters
        | some marks =>
          match marks[tone - 1]? with
          | none => none
          | some m =>
            match letters[j]? with
            | none => none
            | some orig => some (letters.set j (if pyIsUpper orig then pyUpper m else m))

/-- convert_pinyin: split the raw romanization on whitespace, convert
each syllable, join with single spaces.  `none` models an exception
escaping from some syllable conversion. -/
def convertPinyin (raw : List Char) : Option (List Char) :=
  match (splitWs raw).mapM convertSyllable with
  | none => none
  | some sylls => some (List.intercalate [' '] sylls)

/-! ## strip_tones -/

/-- The replacements table of strip_tones, as a character map.  The
source applies the 24 single-character replaces sequentially; since no
replacement output is a key of a later replacement, this equals one
simultaneous character map. -/
def stripRepl (c : Char) : Char :=
  match c with
  | 'ā' => 'a' | 'á' => 'a' | 'ǎ' => 'a' | 'à' => 'a'
  | 'ē' => 'e' | 'é' => 'e' | 'ě' => 'e' | 'è' => 'e'
  | 'ī' => 'i' | 'í' => 'i' | 'ǐ' => 'i' | 'ì' => 'i'
  | 'ō' => 'o' | 'ó' => 'o' | 'ǒ' => 'o' | 'ò' => 'o'
  | 'ū' => 'u' | 'ú' => 'u' | 'ǔ' => 'u' | 'ù' => 'u'
  | 'ǖ' => 'ü' | 'ǘ' => 'ü' | 'ǚ' => 'ü' | 'ǜ' => 'ü'
  | c => c

/-- The digit class `[1-5]` removed by the final re.sub of strip_tones. -/
def isDigit15 (c : Char) : Bool := '1' ≤ c && c ≤ '5'

/-- strip_tones: map marked vowels to their base letters, then delete
the digits 1 to 5.  It does not lowercase, does not touch uppercase
marked vowels, and keeps the digits 0 and 6 to 9. -/
def stripTones (p : List Char) : List Char :=
  (p.map stripRepl).filter (fun c => !(isDigit15 c))

/-! ## Gloss cleaner (clean_definitions) -/

/-- Characters allowed inside a classifier token: the regex class
for characters that are not whitespace and not a comma. -/
def nonSpComma (c : Char) : Bool := !(pyIsSpace c) && c ≠ ','

/-- The greedy repetition of comma-separated classifier tokens in the
inline classifier regex of clean_definitions; the fuel argument is the
length of the scanned list. -/
def eatGroups : Nat → List Char → List Char
  | 0, l => l
  | fuel + 1, l =>
    match l with
    | ',' :: rest =>
      let tok := rest.takeWhile nonSpComma
      if tok = [] then l else eatGroups fuel (rest.dropWhile nonSpComma)
    | _ => l

/-- Attempt to match the inline classifier pattern (optional leading
whitespace, literal CL colon, a nonempty token, then comma-token
groups) at the head of the list; returns the remainder after the match. -/
def matchCLAt (s : List Char) : Option (List Char) :=
  let s1 := s.dropWhile pyIsSpace
  match s1 with
  | 'C' :: 'L' :: ':' :: s2 =>
    let tok := s2.takeWhile nonSpComma
    if tok = [] then none
    else
      let s3 := s2.dropWhile nonSpComma
      some (eatGroups s3.length s3)
  | _ => none

/-- The re.sub deleting inline classifier notes: scan left to right,
deleting each leftmost match and continuing after it.  Fuel is the
length of the list (each match consumes at least four characters). -/
def subCL : Nat → List Char → List Char
  | 0, l => l
  | _ + 1, [] => []
  | fuel + 1, c :: rest =>
    match matchCLAt (c :: rest) with
    | some r => subCL fuel r
    | none => c :: subCL fuel rest

/-- One fragment of clean_definitions: strip, drop classifier-only and
cross-reference fragments, delete inline classifier notes, strip again,
drop old variants and empties. -/
def cleanDef1 (d : List Char) : Option (List Char) :=
  let d1 := pyStrip d
  if d1 = [] then none
  else if startsWith "CL:".toList d1 then none
  else if startsWith "variant of ".toList d1 then none
  else if startsWith "see also ".toList d1 then none
  else if startsWith "also written ".toList d1 then none
  else
    let d2 := pyStrip (subCL d1.length d1)
    if startsWith "old variant of ".toList d2 then none
    else if d2 = [] then none
    else some d2

/-- clean_definitions: split the raw blob on slashes and clean each
fragment, keeping order and multiplicity. -/
def cleanDefinitions (raw : List Char) : List (List Char) :=
  (splitOnChar '/' raw).filterMap cleanDef1

/-! ## Entry parser (parse_cedict_line) -/

/-- A parsed candidate record, the dict returned by parse_cedict_line. -/
structure Entry where
  traditional : List Char
  simplified : List Char
  pinyin : List Char
  english : List Char
deriving DecidableEq

deriving instance DecidableEq for Except

/-- The line regex of parse_cedict_line,
`^(\S+)\s+(\S+)\s+\[([^\]]+)\]\s+/(.+)/$`, decomposed.  Greedy runs are
forced here (a shorter nonspace run would put a nonspace character
under a whitespace quantifier), so the regex is equivalent to this
sequential split.  Returns (traditional, simplified, raw pinyin, raw
gloss blob). -/
def matchEntry (l : List Char) : Option (List Char × List Char × List Char × List Char) :=
  let t1 := l.takeWhile (fun c => !(pyIsSpace c))
  let r1 := l.dropWhile (fun c => !(pyIsSpace c))
  let w1 := r1.takeWhile pyIsSpace
  let r2 := r1.dropWhile pyIsSpace
  let t2 := r2.takeWhile (fun c => !(pyIsSpace c))
  let r3 := r2.dropWhile (fun c => !(pyIsSpace c))
  let w2 := r3.takeWhile pyIsSpace
  let r4 := r3.dropWhile pyIsSpace
  match r4 with
  | '[' :: r5 =>
    let p := r5.takeWhile (fun c => c ≠ ']')
    match r5.dropWhile (fun c => c ≠ ']') with
    | ']' :: r7 =>
      let w3 := r7.takeWhile pyIsSpace
      match r7.dropWhile pyIsSpace with
      | '/' :: r9 =>
        if t1 ≠ [] && w1 ≠ [] && t2 ≠ [] && w2 ≠ [] && p ≠ [] && w3 ≠ []
            && r9.getLast? = some '/' && decide (r9.dropLast ≠ [])
        then some (t1, t2, p, r9.dropLast)
        else none
      | _ => none
    | _ => none
  | _ => none

/-- parse_cedict_line.  `.error ()` models an exception escaping from
convert_pinyin; `.ok none` is a skipped line (blank, comment, failed
regex, or empty cleaned definitions); `.ok (some e)` is a candidate. -/
def parseCedictLine (line : List Char) : Except Unit (Option Entry) :=
  let l := pyStrip line
  if l = [] then .ok none
  else if startsWith "#".toList l then .ok none
  else
    match matchEntry l with
    | none => .ok none
    | some (t1, t2, p, g) =>
      match convertPinyin p with
      | none => .error ()
      | some py =>
        let defs := cleanDefinitions g
        if defs = [] then .ok none
        else .ok (some { traditional := t1, simplified := t2, pinyin := py,
                         english := List.intercalate "; ".toList defs })

/-- The parsing loop of main: collect the parsed candidates in order,
skipping `None` results; an exception aborts the whole run. -/
def entriesOf : List (List Char) → Except Unit (List Entry)
  | [] => .ok []
  | l :: rest =>
    match parseCedictLine l with
    | .error e => .error e
    | .ok none => entriesOf rest
    | .ok (some en) =>
      match entriesOf rest with
      | .error e => .error e
      | .ok es => .ok (en :: es)

/-! ## Store model and merge/apply engine (main) -/

/-- A vocabulary row.  The id (a uuid string in the source) is modelled
as a Nat; updated_at timestamps as Nat.  example_sentences is opaque to
the pipeline.

Modelled from the spec: the vocabulary DDL is not part of the sources;
per the data model a pipeline insert leaves example_sentences empty and
the columns absent from the INSERT take their defaults. -/
structure Row where
  id : Nat
  chinese : List Char
  traditional : Option (List Char)
  pinyin : List Char
  pinyinNoTones : Option (List Char)
  english : List Char
  hskLevel : Int
  examples : List (List Char)
  updatedAt : Nat
deriving DecidableEq

/-- One element of update_rows: (english, traditional, id). -/
structure UpdRow where
  english : List Char
  traditional : List Char
  uid : Nat
deriving DecidableEq

/-- The normalization `.lower().replace(" ", "")` applied to key
strings in load_existing_entries and in the main loop. -/
def keyNorm (s : List Char) : List Char :=
  (s.map pyLower).filter (fun c => c ≠ ' ')

/-- The identity key of a stored row, as computed by
load_existing_entries: `(chinese, (pinyin_no_tones or
strip_tones(pinyin)).lower().replace(" ", ""))`; a null or empty
pinyin_no_tones falls back to recomputation from pinyin. -/
def rowKey (r : Row) : List Char × List Char :=
  (r.chinese,
    keyNorm (match r.pinyinNoTones with
             | some p => if p = [] then stripTones r.pinyin else p
             | none => stripTones r.pinyin))

/-- The identity key of a candidate, as computed in the main loop:
`(entry["simplified"], strip_tones(entry["pinyin"]).lower().replace(" ", ""))`. -/
def entryKey (e : Entry) : List Char × List Char :=
  (e.simplified, keyNorm (stripTones e.pinyin))

/-- The dict built by load_existing_entries, as a lookup: iterating the
rows in order and overwriting means the last row with a given key wins.
Only the id of the stored value is ever read by main. -/
def lookupRow (store : List Row) (k : List Char × List Char) : Option Row :=
  store.foldl (fun acc r => if rowKey r = k then some r else acc) none

/-- update_rows of the main loop: candidates whose key is in the
snapshot, in source order, carrying (english, traditional, existing id). -/
def updateRows (store : List Row) (es : List Entry) : List UpdRow :=
  es.filterMap fun e =>
    (lookupRow store (entryKey e)).map fun r =>
      { english := e.english, traditional := e.traditional, uid := r.id }

/-- The candidates classified as inserts: key absent from the snapshot.
The snapshot is fixed before the loop, so several candidates with the
same absent key are all classified as inserts. -/
def insertEntries (store : List Row) (es : List Entry) : List Entry :=
  es.filter fun e => (lookupRow store (entryKey e)).isNone

/-- The SET clause of the batched UPDATE: english, traditional and
updated_at only. -/
def setRow (now : Nat) (u : UpdRow) (r : Row) : Row :=
  { r with english := u.english, traditional := some u.traditional, updatedAt := now }

/-- Effect of one UPDATE statement on one row: rows whose id matches
are set, others untouched. -/
def applyU (now : Nat) (u : UpdRow) (r : Row) : Row :=
  if r.id = u.uid then setRow now u r else r

/-- Effect of one UPDATE statement on the store. -/
def applyUpdate (now : Nat) (store : List Row) (u : UpdRow) : List Row :=
  store.map (applyU now u)

/-- The row created by one INSERT: all listed columns from the
candidate, hsk_level 0, and the defaults for the absent columns
(empty example_sentences).  Note pinyin_no_tones is stored as
`strip_tones(entry["pinyin"])`, without the key normalization. -/
def insertRow (now : Nat) (vid : Nat) (e : Entry) : Row :=
  { id := vid, chinese := e.simplified, traditional := some e.traditional,
    pinyin := e.pinyin, pinyinNoTones := some (stripTones e.pinyin),
    english := e.english, hskLevel := 0, examples := [], updatedAt := now }

/-- The rows created for the insert batch, ids drawn in order from the
uuid stream (modelled as a function from insert position to id). -/
def insertRowsFrom (now : Nat) (ids : Nat → Nat) (j : Nat) : List Entry → List Row
  | [] => []
  | e :: rest => insertRow now (ids j) e :: insertRowsFrom now ids (j + 1) rest

/-- Fixed-size chunking of a batch (`range(0, len(rows), batch_size)`
with slices); fuel is the list length. -/
def chunksFuel (sz : Nat) : Nat → List α → List (List α)
  | _, [] => []
  | 0, l => [l]
  | fuel + 1, l => l.take sz :: chunksFuel sz fuel (l.drop sz)

/-- Chunks of batch_size = 500, as in main. -/
def chunks500 (l : List α) : List (List α) := chunksFuel 500 l.length l

/-- The update batches applied chunk by chunk, each chunk row by row
(execute_batch executes the statements in order). -/
def applyUpdates (now : Nat) (store : List Row) (us : List UpdRow) : List Row :=
  (chunks500 us).foldl (fun st batch => batch.foldl (applyUpdate now) st) store

/-- The insert batches appended chunk by chunk. -/
def appendChunks (store : List Row) (rows : List Row) : List Row :=
  (chunks500 rows).foldl (fun st batch => st ++ batch) store

/-- The per-chunk count accumulation (`updated += len(batch)`). -/
def countChunks (l : List α) : Nat :=
  (chunks500 l).foldl (fun n batch => n + batch.length) 0

/-- The outcome of a completed run: the final store and the three
counters of main.  The source initializes `skipped = 0` and never
increments it. -/
structure RunResult where
  store : List Row
  updated : Nat
  inserted : Nat
  skipped : Nat
deriving DecidableEq

/-- The whole import run of main, from the source lines and the store
snapshot: parse, classify against the fixed snapshot, apply update
chunks then insert chunks.  `none` models a run aborted by an exception
during parsing. -/
def runImport (now : Nat) (ids : Nat → Nat) (source : List (List Char)) (store : List Row) :
    Option RunResult :=
  match entriesOf source with
  | .error _ => none
  | .ok es =>
    let us := updateRows store es
    let ins := insertEntries store es
    let newRows := insertRowsFrom now ids 0 ins
    some { store := appendChunks (applyUpdates now store us) newRows,
           updated := countChunks us,
           inserted := countChunks newRows,
           skipped := 0 }

/-- The number of distinct identity keys in the store: the size of the
dict built by load_existing_entries (`len(existing)`). -/
def distinctKeyCount (store : List Row) : Nat := ((store.map rowKey).dedup).length

/-- The printed run report (lines 324 to 327 of the source): updated,
inserted, and the total `updated + inserted + (len(existing) - updated)`.
No skipped count is printed. -/
structure Report where
  updated : Nat
  inserted : Nat
  totalNow : Int
deriving DecidableEq

/-- Build the printed report from the pre-run store and the result. -/
def runReport (store : List Row) (res : RunResult) : Report :=
  { updated := res.updated, inserted := res.inserted,
    totalNow := (res.updated : Int) + res.inserted + ((distinctKeyCount store : Int) - res.updated) }

/-- The number of source lines rejected by parsing or cleaning (the
lines the spec says the skipped counter reports). -/
def failedLineCount (source : List (List Char)) : Nat :=
  (source.filter (fun l =>
    match parseCedictLine l with
    | .ok none => true
    | _ => false)).length

/-- The fields of a row the update path may never touch: identifier,
script form, pronunciation, matching key, level and examples. -/
def FrameEq (r r' : Row) : Prop :=
  r'.id = r.id ∧ r'.chinese = r.chinese ∧ r'.pinyin = r.pinyin ∧
  r'.pinyinNoTones = r.pinyinNoTones ∧ r'.hskLevel = r.hskLevel ∧
  r'.examples = r.examples

instance (r r' : Row) : Decidable (FrameEq r r') := by
  unfold FrameEq; infer_instance

/-- Uniqueness of the identity pair across the store. -/
def KeysUnique (store : List Row) : Prop := (store.map rowKey).Nodup

instance (store : List Row) : Decidable (KeysUnique store) := by
  unfold KeysUnique; infer_instance

/-! ## Auxiliary definitions used by the statements and proofs -/

/-- The cumulative effect of a list of update statements on one row
(the store map form of the chunked update application). -/
def rowAfter (now : Nat) (us : List UpdRow) (r : Row) : Row :=
  us.foldl (fun r u => applyU now u r) r

/-- The last update row targeting a given id, if any: with updates
executed in order, the last write wins. -/
def lastUpd (us : List UpdRow) (i : Nat) : Option UpdRow :=
  us.foldl (fun acc u => if u.uid = i then some u else acc) none

/-- The numbered-tone digit character for a tone between 0 and 9. -/
def digitChar (t : Nat) : Char :=
  match t with
  | 0 => '0' | 1 => '1' | 2 => '2' | 3 => '3' | 4 => '4'
  | 5 => '5' | 6 => '6' | 7 => '7' | 8 => '8' | _ => '9'

/-- The vowel-bearing characters eligible for a tone mark, as the code
selects them: the keys of tone_map (including v). -/
def vowelSetSpec : List Char := ['a', 'e', 'i', 'o', 'u', 'ü', 'v']

/-- The last index of the list whose character belongs to the given
set, scanning from the end, together with that character. -/
def lastIdxIn (S : List Char) : List Char → Option (Nat × Char)
  | [] => none
  | c :: rest =>
    match lastIdxIn S rest with
    | some (j, v) => some (j + 1, v)
    | none => if S.contains c then some (0, c) else none

/-- Modelled from the spec (amended): the marked-vowel selection rule
stated independently of convert_syllable — mark a if present, else e
if present, else the first o when the substring ou occurs, else the
last character of the eligible set scanning from the end. -/
def specSelectVowel (lower : List Char) : Option (Nat × Char) :=
  if lower.contains 'a' then (firstIdxOf 'a' lower).map (fun j => (j, 'a'))
  else if lower.contains 'e' then (firstIdxOf 'e' lower).map (fun j => (j, 'e'))
  else if hasOU lower then (firstIdxOf 'o' lower).map (fun j => (j, 'o'))
  else lastIdxIn vowelSetSpec lower

/-- The diacritic form of a base vowel for a tone between 1 and 4
(1 macron, 2 acute, 3 caron, 4 grave), per the tone_map table; the key
v takes the u-umlaut diacritics. -/
def specMark (v : Char) (t : Nat) : Char :=
  match toneMarks v with
  | some ms => ms.getD (t - 1) v
  | none => v

/-- The lowercase syllable alphabet without v, over which tone
stripping inverts tone marking exactly. -/
def lowerSylChars : List Char := "abcdefghijklmnopqrstuwxyz".toList ++ ['ü']

/-! ## Concrete inputs used to instantiate the theorems -/

/-- A placeholder row (used only as the default of an Option lookup). -/
def dummyRow : Row :=
  { id := 0, chinese := [], traditional := none, pinyin := [], pinyinNoTones := none,
    english := [], hskLevel := 0, examples := [], updatedAt := 0 }

/-- A uuid stream for concrete runs. -/
def witIds (j : Nat) : Nat := j + 100

/-- A second, disjoint uuid stream. -/
def witIds2 (j : Nat) : Nat := j + 200

/-- A two-line dictionary source. -/
def witSrc : List (List Char) :=
  ["AA BB [ma1] /dog/".toList, "CC DD [hen4] /to hate/".toList]

/-- A curated row whose identity key matches the first line of witSrc
through the strip_tones fallback. -/
def witCurated : Row :=
  { id := 5, chinese := "BB".toList, traditional := none, pinyin := "mā".toList,
    pinyinNoTones := none, english := "old".toList, hskLevel := 3,
    examples := ["ex1".toList], updatedAt := 1 }

/-- The store holding the curated row. -/
def witStore : List Row := [witCurated]

/-- The result of running witSrc against witStore. -/
def witRes : RunResult :=
  (runImport 9 witIds witSrc witStore).getD { store := [], updated := 0, inserted := 0, skipped := 0 }

/-- The parsed entries of witSrc. -/
def witEs : List Entry :=
  match entriesOf witSrc with
  | .ok es => es
  | .error _ => []

/-- The row inserted at position 1 by the witRes run. -/
def witRow3 : Row := (witRes.store[1]?).getD dummyRow

/-- The result of running witSrc against the empty store. -/
def witResEmpty : RunResult :=
  (runImport 7 witIds witSrc []).getD { store := [], updated := 0, inserted := 0, skipped := 0 }

/-- A one-line source whose pinyin has two syllables. -/
def witSrcSpace : List (List Char) := ["AB AB [ma1 ma1] /mom/".toList]

/-- The result of running witSrcSpace against the empty store. -/
def witResSpace : RunResult :=
  (runImport 7 witIds witSrcSpace []).getD { store := [], updated := 0, inserted := 0, skipped := 0 }

/-- The single row inserted by the witResSpace run. -/
def witRowSpace : Row := (witResSpace.store[0]?).getD dummyRow

/-- The parsed entries of witSrcSpace. -/
def witEsSpace : List Entry :=
  match entriesOf witSrcSpace with
  | .ok es => es
  | .error _ => []

/-! ## Claim theorems: counterexamples and code-bug demonstrations -/

/-- C6: the claim says parsing and tone conversion never raise; but on
the line `AA BB [ma6] /dog/` (tone digit 6) convert_syllable evaluates
the tone_map list past its end, raising an IndexError that escapes
parse_cedict_line and aborts the run, while a vowelless syllable with
the same digit returns early.  This contradicts the function docstring
(fall back to the raw string) and the spec, so it is a bug in the code. -/
theorem c6_tone_digit_exception :
    parseCedictLine "AA BB [ma6] /dog/".toList = .error () ∧
    convertSyllable "ma6".toList = none ∧
    convertSyllable "xyz7".toList = some "xyz".toList := by
  refine ⟨by decide, by decide, by decide⟩

/-- C5: the claim says the run reports updated, inserted and skipped
with skipped counting the lines that failed parsing or cleaning; but
main initializes `skipped = 0`, never increments it, and the printed
report has no skipped line: on a source whose single line fails
parsing, the counter stays 0 while one line was skipped. -/
theorem c5_skipped_never_counted :
    (runImport 7 (fun j => j) ["garbage line".toList] []).map RunResult.skipped = some 0 ∧
    failedLineCount ["garbage line".toList] = 1 ∧
    (runImport 7 (fun j => j) ["garbage line".toList] []).map (runReport []) =
      some { updated := 0, inserted := 0, totalNow := 0 } := by
  refine ⟨by decide, by decide, by decide⟩

/-- C4 counterexample: two source lines with the same simplified form
and pinyin but different traditional forms both miss the empty store
snapshot, so both are inserted, and the resulting store holds two rows
with the same (script_form, normalized key) pair. -/
theorem c4_counterexample :
    KeysUnique ([] : List Row) ∧
    (runImport 7 (fun j => j) ["AA BB [ma1] /dog/".toList, "EE BB [ma1] /cat/".toList] []).map
        (fun r => decide (KeysUnique r.store)) = some false := by
  refine ⟨by decide, by decide⟩

/-- C7 counterexample: the claim says a syllable with no character of
{a,e,i,o,u,ü} (such as one whose only vowel-like letter is v) has its
letters returned unmarked; but v is a key of tone_map, so the backwards
scan selects it and `v3` converts to a marked u-umlaut, not to `v`. -/
theorem c7_counterexample :
    convertSyllable ['v', '3'] = some ['ǚ'] ∧ convertSyllable ['v', '3'] ≠ some ['v'] := by
  refine ⟨by decide, by decide⟩

/-- C8 counterexample: the claim states convert("ni3") == "ní"; the
code (correctly, tone 3 being a caron) produces "nǐ". -/
theorem c8_counterexample :
    convertPinyin "ni3".toList = some "nǐ".toList ∧
    convertPinyin "ni3".toList ≠ some "ní".toList := by
  refine ⟨by decide, by decide⟩

/-- C9 counterexample: strip_tones handles only the lowercase marked
vowels and deletes only the digits 1 to 5, so it neither inverts an
uppercase marked vowel nor removes a residual digit 0. -/
theorem c9_counterexample :
    stripTones "a0".toList = "a0".toList ∧ stripTones "a0".toList ≠ "a".toList ∧
    stripTones "Ā".toList = "Ā".toList ∧ stripTones "Ā".toList ≠ "A".toList := by
  refine ⟨by decide, by decide, by decide, by decide⟩

/-- C10 counterexample: a two-syllable insert stores
pinyin_no_tones = strip_tones(pinyin) = "ma ma", which still contains a
space (and in general keeps case), while the lowercase space-stripped
derivative of the pronunciation is "mama". -/
theorem c10_counterexample :
    (runImport 7 (fun j => j) ["AB AB [ma1 ma1] /mom/".toList] []).map
        (fun r => r.store.map (fun row => (row.pinyinNoTones, keyNorm (stripTones row.pinyin)))) =
      some [(some "ma ma".toList, "mama".toList)] ∧
    "ma ma".toList ≠ "mama".toList := by
  refine ⟨by decide, by decide⟩

/-! ## Generic fold and chunking lemmas -/

theorem foldl_choice {α : Type} (P : α → Prop) [DecidablePred P] (l : List α) (seed : Option α) :
    l.foldl (fun acc x => if P x then some x else acc) seed =
      (l.reverse.find? (fun x => decide (P x))).or seed := by
  induction l generalizing seed with
  | nil => simp
  | cons x xs ih =>
    simp only [List.foldl_cons, ih, List.reverse_cons, List.find?_append]
    by_cases h : P x <;> simp [h, Option.or_assoc]

theorem chunksFuel_flatten {α : Type} (sz : Nat) (hsz : 1 ≤ sz) :
    ∀ (fuel : Nat) (l : List α), l.length ≤ fuel → (chunksFuel sz fuel l).flatten = l := by
  intro fuel
  induction fuel with
  | zero =>
    intro l hl
    cases l with
    | nil => rfl
    | cons c tl => simp at hl
  | succ f ih =>
    intro l hl
    cases l with
    | nil => rfl
    | cons c tl =>
      simp only [chunksFuel, List.flatten_cons]
      rw [ih]
      · exact List.take_append_drop sz (c :: tl)
      · simp only [List.length_drop, List.length_cons]
        simp only [List.length_cons] at hl
        omega

theorem chunks500_flatten {α : Type} (l : List α) : (chunks500 l).flatten = l :=
  chunksFuel_flatten 500 (by omega) l.length l le_rfl

theorem applyUpdates_eq (now : Nat) (st : List Row) (us : List UpdRow) :
    applyUpdates now st us = us.foldl (applyUpdate now) st := by
  have h := List.foldl_flatten (applyUpdate now) st (chunks500 us)
  rw [chunks500_flatten] at h
  exact h.symm

theorem foldl_appendAll {α : Type} :
    ∀ (L : List (List α)) (st : List α), L.foldl (fun s b => s ++ b) st = st ++ L.flatten := by
  intro L
  induction L with
  | nil => intro st; simp
  | cons b L ih => intro st; simp [ih, List.append_assoc]

theorem appendChunks_eq (st rows : List Row) : appendChunks st rows = st ++ rows := by
  unfold appendChunks
  rw [foldl_appendAll, chunks500_flatten]

theorem foldl_countAll {α : Type} :
    ∀ (L : List (List α)) (n : Nat), L.foldl (fun n b => n + b.length) n = n + L.flatten.length := by
  intro L
  induction L with
  | nil => intro n; simp
  | cons b L ih => intro n; simp [ih]; omega

theorem countChunks_eq {α : Type} (l : List α) : countChunks l = l.length := by
  unfold countChunks
  rw [foldl_countAll, chunks500_flatten]
  omega

/-! ## Row and update lemmas -/

theorem setRow_id (now : Nat) (u : UpdRow) (r : Row) : (setRow now u r).id = r.id := rfl

theorem rowKey_setRow (now : Nat) (u : UpdRow) (r : Row) :
    rowKey (setRow now u r) = rowKey r := rfl

theorem setRow_setRow (now now2 : Nat) (u u2 : UpdRow) (r : Row) :
    setRow now u (setRow now2 u2 r) = setRow now u r := rfl

theorem applyU_id (now : Nat) (u : UpdRow) (r : Row) : (applyU now u r).id = r.id := by
  unfold applyU; split <;> rfl

theorem rowAfter_cons (now : Nat) (u : UpdRow) (us : List UpdRow) (r : Row) :
    rowAfter now (u :: us) r = rowAfter now us (applyU now u r) := rfl

theorem rowAfter_append_one (now : Nat) (us : List UpdRow) (u : UpdRow) (r : Row) :
    rowAfter now (us ++ [u]) r = applyU now u (rowAfter now us r) := by
  unfold rowAfter
  rw [List.foldl_append]
  rfl

theorem rowAfter_id (now : Nat) (us : List UpdRow) (r : Row) :
    (rowAfter now us r).id = r.id := by
  induction us generalizing r with
  | nil => rfl
  | cons u us ih => rw [rowAfter_cons, ih, applyU_id]

theorem lastUpd_append_one (us : List UpdRow) (u : UpdRow) (i : Nat) :
    lastUpd (us ++ [u]) i = if u.uid = i then some u else lastUpd us i := by
  unfold lastUpd
  rw [List.foldl_append]
  rfl

theorem rowAfter_eq_lastUpd (now : Nat) (us : List UpdRow) (r : Row) :
    rowAfter now us r =
      match lastUpd us r.id with
      | some u => setRow now u r
      | none => r := by
  induction us using List.reverseRecOn with
  | nil => rfl
  | append_singleton us u ih =>
    rw [rowAfter_append_one, lastUpd_append_one, ih]
    by_cases h : u.uid = r.id
    · cases hlu : lastUpd us r.id <;>
        simp [hlu, h, applyU, setRow_id, setRow_setRow]
    · cases hlu : lastUpd us r.id <;>
      · simp only [hlu, applyU, setRow_id]
        rw [if_neg (fun heq => h heq.symm), if_neg h]

theorem foldlUpd_eq_map (now : Nat) :
    ∀ (us : List UpdRow) (st : List Row),
      us.foldl (applyUpdate now) st = st.map (rowAfter now us) := by
  intro us
  induction us with
  | nil =>
    intro st
    simp only [List.foldl_nil]
    exact (List.map_id' st).symm
  | cons u us ih =>
    intro st
    simp only [List.foldl_cons]
    rw [ih]
    unfold applyUpdate
    rw [List.map_map]
    rfl

/-! ## Frame lemmas -/

theorem frameEq_refl (r : Row) : FrameEq r r := ⟨rfl, rfl, rfl, rfl, rfl, rfl⟩

theorem frameEq_trans {a b c : Row} (h1 : FrameEq a b) (h2 : FrameEq b c) : FrameEq a c := by
  obtain ⟨h1a, h1b, h1c, h1d, h1e, h1f⟩ := h1
  obtain ⟨h2a, h2b, h2c, h2d, h2e, h2f⟩ := h2
  exact ⟨h2a.trans h1a, h2b.trans h1b, h2c.trans h1c, h2d.trans h1d,
         h2e.trans h1e, h2f.trans h1f⟩

theorem frameEq_setRow (now : Nat) (u : UpdRow) (r : Row) : FrameEq r (setRow now u r) :=
  ⟨rfl, rfl, rfl, rfl, rfl, rfl⟩

theorem frameEq_applyU (now : Nat) (u : UpdRow) (r : Row) : FrameEq r (applyU now u r) := by
  unfold applyU
  split
  · exact frameEq_setRow now u r
  · exact frameEq_refl r

theorem frameEq_rowAfter (now : Nat) (us : List UpdRow) (r : Row) :
    FrameEq r (rowAfter now us r) := by
  induction us generalizing r with
  | nil => exact frameEq_refl r
  | cons u us ih =>
    rw [rowAfter_cons]
    exact frameEq_trans (frameEq_applyU now u r) (ih (applyU now u r))

theorem rowKey_of_frameEq {r r' : Row} (h : FrameEq r r') : rowKey r' = rowKey r := by
  obtain ⟨_, hch, hpy, hpnt, _, _⟩ := h
  unfold rowKey
  rw [hch, hpy, hpnt]

theorem rowKey_rowAfter (now : Nat) (us : List UpdRow) (r : Row) :
    rowKey (rowAfter now us r) = rowKey r :=
  rowKey_of_frameEq (frameEq_rowAfter now us r)

/-! ## Lookup lemmas -/

theorem lookupRow_eq_find (st : List Row) (k : List Char × List Char) :
    lookupRow st k = st.reverse.find? (fun r => decide (rowKey r = k)) := by
  unfold lookupRow
  rw [foldl_choice (fun r => rowKey r = k) st none]
  simp

theorem lookupRow_append (s t : List Row) (k : List Char × List Char) :
    lookupRow (s ++ t) k = (lookupRow t k).or (lookupRow s k) := by
  simp [lookupRow_eq_find, List.reverse_append, List.find?_append]

theorem lookupRow_map {g : Row → Row} (hg : ∀ r, rowKey (g r) = rowKey r)
    (st : List Row) (k : List Char × List Char) :
    lookupRow (st.map g) k = (lookupRow st k).map g := by
  rw [lookupRow_eq_find, lookupRow_eq_find, ← List.map_reverse, List.find?_map]
  have hfun : ((fun r => decide (rowKey r = k)) ∘ g) = (fun r => decide (rowKey r = k)) := by
    funext r
    simp [hg r]
  rw [hfun]

theorem lookupRow_none_iff (st : List Row) (k : List Char × List Char) :
    lookupRow st k = none ↔ ∀ r ∈ st, rowKey r ≠ k := by
  rw [lookupRow_eq_find, List.find?_eq_none]
  constructor
  · intro h r hr
    have := h r (List.mem_reverse.mpr hr)
    simpa using this
  · intro h r hr
    simpa using h r (List.mem_reverse.mp hr)

theorem lookupRow_mem {st : List Row} {k : List Char × List Char} {r : Row}
    (h : lookupRow st k = some r) : r ∈ st ∧ rowKey r = k := by
  rw [lookupRow_eq_find] at h
  refine ⟨List.mem_reverse.mp (List.mem_of_find?_eq_some h), ?_⟩
  have := List.find?_some h
  simpa using this

/-! ## Insert batch lemmas -/

theorem rowKey_insertRow (now vid : Nat) (e : Entry) :
    rowKey (insertRow now vid e) = entryKey e := by
  unfold rowKey insertRow entryKey
  simp only
  split
  · next h => rw [h]
  · rfl

theorem insertRowsFrom_length (now : Nat) (ids : Nat → Nat) :
    ∀ (L : List Entry) (j : Nat), (insertRowsFrom now ids j L).length = L.length := by
  intro L
  induction L with
  | nil => intro j; rfl
  | cons e L ih => intro j; simp [insertRowsFrom, ih]

theorem insertRowsFrom_getElem? (now : Nat) (ids : Nat → Nat) :
    ∀ (L : List Entry) (j m : Nat),
      (insertRowsFrom now ids j L)[m]? = (L[m]?).map (fun e => insertRow now (ids (j + m)) e) := by
  intro L
  induction L with
  | nil => intro j m; simp [insertRowsFrom]
  | cons e L ih =>
    intro j m
    cases m with
    | zero => simp [insertRowsFrom]
    | succ m =>
      simp only [insertRowsFrom, List.getElem?_cons_succ, ih (j + 1) m]
      have harith : j + 1 + m = j + (m + 1) := by omega
      rw [harith]

theorem insertRowsFrom_map_rowKey (now : Nat) (ids : Nat → Nat) :
    ∀ (L : List Entry) (j : Nat),
      (insertRowsFrom now ids j L).map rowKey = L.map entryKey := by
  intro L
  induction L with
  | nil => intro j; rfl
  | cons e L ih =>
    intro j
    simp [insertRowsFrom, rowKey_insertRow, ih]

theorem insertRowsFrom_mem_id (now : Nat) (ids : Nat → Nat) :
    ∀ (L : List Entry) (j : Nat) (x : Row), x ∈ insertRowsFrom now ids j L →
      ∃ m, m < L.length ∧ x.id = ids (j + m) := by
  intro L
  induction L with
  | nil => intro j x hx; simp [insertRowsFrom] at hx
  | cons e L ih =>
    intro j x hx
    simp only [insertRowsFrom, List.mem_cons] at hx
    rcases hx with hx | hx
    · exact ⟨0, by simp, by rw [hx]; rfl⟩
    · obtain ⟨m, hm, hid⟩ := ih (j + 1) x hx
      exact ⟨m + 1, by simpa using hm, by rw [hid]; congr 1; omega⟩

/-! ## Run characterization -/

theorem runImport_spec {now : Nat} {ids : Nat → Nat} {src : List (List Char)}
    {st : List Row} {res : RunResult} {es : List Entry}
    (hes : entriesOf src = .ok es) (h : runImport now ids src st = some res) :
    res.store = st.map (rowAfter now (updateRows st es)) ++
        insertRowsFrom now ids 0 (insertEntries st es) ∧
      res.updated = (updateRows st es).length ∧
      res.inserted = (insertEntries st es).length ∧ res.skipped = 0 := by
  unfold runImport at h
  rw [hes] at h
  simp only [Option.some.injEq] at h
  subst h
  refine ⟨?_, ?_, ?_, rfl⟩
  · simp only [appendChunks_eq, applyUpdates_eq, foldlUpd_eq_map]
  · simp [countChunks_eq]
  · simp [countChunks_eq, insertRowsFrom_length]

theorem runImport_entriesOf {now : Nat} {ids : Nat → Nat} {src : List (List Char)}
    {st : List Row} {res : RunResult} (h : runImport now ids src st = some res) :
    ∃ es, entriesOf src = .ok es := by
  unfold runImport at h
  cases hE : entriesOf src with
  | error e => rw [hE] at h; cases h
  | ok es => exact ⟨es, rfl⟩

/-- C2: frame property of the update path — a completed run leaves
every pre-existing row in place and never changes its id, script form,
pronunciation, matching key, level or examples; only gloss, alternate
form and updated_at may differ. -/
theorem c2_update_frame {now : Nat} {ids : Nat → Nat} {src : List (List Char)}
    {st : List Row} {res : RunResult} (h : runImport now ids src st = some res) :
    res.store.length = st.length + res.inserted ∧
    ∀ (n : Nat) (a b : Row), st[n]? = some a → res.store[n]? = some b → FrameEq a b := by
  obtain ⟨es, hes⟩ := runImport_entriesOf h
  obtain ⟨hstore, _, hins, _⟩ := runImport_spec hes h
  constructor
  · rw [hstore, hins]
    simp [insertRowsFrom_length]
  · intro n a b ha hb
    have hn : n < st.length := by
      by_contra hge
      rw [List.getElem?_eq_none (by omega)] at ha
      cases ha
    rw [hstore, List.getElem?_append_left (by simpa using hn), List.getElem?_map, ha] at hb
    simp only [Option.map_some', Option.some.injEq] at hb
    rw [← hb]
    exact frameEq_rowAfter now (updateRows st es) a

/-- C3: insert postcondition — every row a completed run appends (one
per candidate whose key missed the snapshot) carries a fresh identifier
from the uuid stream, distinct from all existing ids and from the other
inserted ids, has level 0 and empty examples, and takes its script
form, alternate form, pronunciation, stored key, and gloss from the
candidate. -/
theorem c3_insert_post {now : Nat} {ids : Nat → Nat} {src : List (List Char)}
    {st : List Row} {res : RunResult} (h : runImport now ids src st = some res)
    (hfresh : ∀ j, ids j ∉ st.map Row.id) (hinj : Function.Injective ids) :
    ∀ (n : Nat) (b : Row), st.length ≤ n → res.store[n]? = some b →
      b.hskLevel = 0 ∧ b.examples = [] ∧ b.id = ids (n - st.length) ∧
      b.id ∉ st.map Row.id ∧
      (∀ (m : Nat) (c : Row), st.length ≤ m → res.store[m]? = some c → m ≠ n → c.id ≠ b.id) ∧
      ∃ es, entriesOf src = .ok es ∧ ∃ e ∈ insertEntries st es,
        b.chinese = e.simplified ∧ b.traditional = some e.traditional ∧
        b.pinyin = e.pinyin ∧ b.pinyinNoTones = some (stripTones e.pinyin) ∧
        b.english = e.english := by
  obtain ⟨es, hes⟩ := runImport_entriesOf h
  obtain ⟨hstore, _, _, _⟩ := runImport_spec hes h
  intro n b hn hb
  rw [hstore, List.getElem?_append_right (by simpa using hn)] at hb
  rw [List.length_map, insertRowsFrom_getElem?] at hb
  cases he : (insertEntries st es)[n - st.length]? with
  | none => rw [he] at hb; cases hb
  | some e =>
    rw [he] at hb
    simp only [Option.map_some', Option.some.injEq] at hb
    have hbe : b = insertRow now (ids (n - st.length)) e := by
      rw [← hb]
      simp
    refine ⟨by rw [hbe]; rfl, by rw [hbe]; rfl, by rw [hbe]; rfl, ?_, ?_, ?_⟩
    · rw [hbe]
      exact hfresh (n - st.length)
    · intro m c hm hc hmn
      rw [hstore, List.getElem?_append_right (by simpa using hm), List.length_map,
        insertRowsFrom_getElem?] at hc
      cases he2 : (insertEntries st es)[m - st.length]? with
      | none => rw [he2] at hc; cases hc
      | some e2 =>
        rw [he2] at hc
        simp only [Option.map_some', Option.some.injEq] at hc
        have hce : c = insertRow now (ids (m - st.length)) e2 := by
          rw [← hc]; simp
        rw [hce, hbe]
        intro hid
        have := hinj hid
        omega
    · refine ⟨es, hes, e, ?_, by rw [hbe]; rfl, by rw [hbe]; rfl, by rw [hbe]; rfl,
        by rw [hbe]; rfl, by rw [hbe]; rfl⟩
      exact List.getElem?_mem he

/-- C4 (amended): the uniqueness invariant on (script_form, normalized
pronunciation key) is preserved by a completed run provided the
candidates classified as inserts have pairwise distinct identity keys;
without that proviso two source lines with the same absent key are both
inserted (see the counterexample). -/
theorem c4_amended {now : Nat} {ids : Nat → Nat} {src : List (List Char)}
    {st : List Row} {res : RunResult} {es : List Entry}
    (hes : entriesOf src = .ok es) (h : runImport now ids src st = some res)
    (hu : KeysUnique st) (hins : ((insertEntries st es).map entryKey).Nodup) :
    KeysUnique res.store := by
  obtain ⟨hstore, _, _, _⟩ := runImport_spec hes h
  unfold KeysUnique at hu ⊢
  rw [hstore, List.map_append, List.map_map, insertRowsFrom_map_rowKey]
  have hmap : st.map (rowKey ∘ rowAfter now (updateRows st es)) = st.map rowKey := by
    apply List.map_congr_left
    intro r _
    exact rowKey_rowAfter now (updateRows st es) r
  rw [hmap, List.nodup_append]
  refine ⟨hu, hins, ?_⟩
  intro k hk1 hk2
  obtain ⟨e, he, hke⟩ := List.mem_map.mp hk2
  obtain ⟨r, hr, hkr⟩ := List.mem_map.mp hk1
  have hpred := (List.mem_filter.mp (show e ∈ es.filter (fun e => (lookupRow st (entryKey e)).isNone) from he)).2
  have hnone : lookupRow st (entryKey e) = none := by
    cases hl : lookupRow st (entryKey e) with
    | none => rfl
    | some r2 => rw [hl] at hpred; cases hpred
  have := (lookupRow_none_iff st (entryKey e)).mp hnone r hr
  exact this (hkr.trans hke.symm)

/-- C10 (amended): every row inserted by a completed run persists
pronunciation_key as strip_tones(pronunciation) — tone marks mapped to
base letters and digits 1 to 5 removed — with no lowercasing and no
space removal (the lowercase space-stripped normalization is applied
when keys are compared, not when they are stored). -/
theorem c10_stored_key {now : Nat} {ids : Nat → Nat} {src : List (List Char)}
    {st : List Row} {res : RunResult} (h : runImport now ids src st = some res) :
    ∀ (n : Nat) (b : Row), st.length ≤ n → res.store[n]? = some b →
      b.pinyinNoTones = some (stripTones b.pinyin) := by
  obtain ⟨es, hes⟩ := runImport_entriesOf h
  obtain ⟨hstore, _, _, _⟩ := runImport_spec hes h
  intro n b hn hb
  rw [hstore, List.getElem?_append_right (by simpa using hn), List.length_map,
    insertRowsFrom_getElem?] at hb
  cases he : (insertEntries st es)[n - st.length]? with
  | none => rw [he] at hb; cases hb
  | some e =>
    rw [he] at hb
    simp only [Option.map_some', Option.some.injEq] at hb
    rw [← hb]
    rfl

/-- Witness for C2: the frame property instantiated on a concrete run
over the curated store. -/
theorem c2_witness :
    runImport 9 witIds witSrc witStore = some witRes ∧
    (witRes.store.length = witStore.length + witRes.inserted ∧
     ∀ (n : Nat) (a b : Row), witStore[n]? = some a → witRes.store[n]? = some b → FrameEq a b) :=
  ⟨by decide, c2_update_frame (show runImport 9 witIds witSrc witStore = some witRes by decide)⟩

/-- Witness for C3: the insert postcondition instantiated at the row
the concrete run appends at position 1. -/
theorem c3_witness :
    witStore.length ≤ 1 ∧ runImport 9 witIds witSrc witStore = some witRes ∧
    witRes.store[1]? = some witRow3 ∧
    (witRow3.hskLevel = 0 ∧ witRow3.examples = [] ∧ witRow3.id = witIds (1 - witStore.length) ∧
     witRow3.id ∉ witStore.map Row.id ∧
     (∀ (m : Nat) (c : Row), witStore.length ≤ m → witRes.store[m]? = some c → m ≠ 1 →
        c.id ≠ witRow3.id) ∧
     ∃ es, entriesOf witSrc = .ok es ∧ ∃ e ∈ insertEntries witStore es,
       witRow3.chinese = e.simplified ∧ witRow3.traditional = some e.traditional ∧
       witRow3.pinyin = e.pinyin ∧ witRow3.pinyinNoTones = some (stripTones e.pinyin) ∧
       witRow3.english = e.english) := by
  refine ⟨by decide, by decide, by decide, ?_⟩
  exact c3_insert_post (show runImport 9 witIds witSrc witStore = some witRes by decide)
    (fun j => by simp [witIds, witStore, witCurated])
    (fun a b hab => by simpa [witIds] using hab)
    1 witRow3 (show witStore.length ≤ 1 by decide)
    (show witRes.store[1]? = some witRow3 by decide)

/-- Witness for the amended C4: uniqueness is preserved by the concrete
run, whose insert keys are pairwise distinct. -/
theorem c4_witness :
    entriesOf witSrc = .ok witEs ∧ KeysUnique witStore ∧
    ((insertEntries witStore witEs).map entryKey).Nodup ∧ KeysUnique witRes.store :=
  ⟨by decide, by decide, by decide,
    c4_amended (show entriesOf witSrc = .ok witEs by decide)
      (show runImport 9 witIds witSrc witStore = some witRes by decide)
      (show KeysUnique witStore by decide)
      (show ((insertEntries witStore witEs).map entryKey).Nodup by decide)⟩

/-- Witness for the amended C10: the concrete inserted row stores
strip_tones(pinyin), with its internal space, as its key column. -/
theorem c10_witness :
    runImport 7 witIds witSrcSpace [] = some witResSpace ∧
    witResSpace.store[0]? = some witRowSpace ∧
    witRowSpace.pinyinNoTones = some (stripTones witRowSpace.pinyin) := by
  refine ⟨by decide, by decide, ?_⟩
  exact c10_stored_key (show runImport 7 witIds witSrcSpace [] = some witResSpace by decide)
    0 witRowSpace (show List.length ([] : List Row) ≤ 0 by decide)
    (show witResSpace.store[0]? = some witRowSpace by decide)

/-! ## Support lemmas for idempotence -/

theorem find?_filterMap {α β : Type} (F : α → Option β) (q : β → Bool) :
    ∀ l : List α,
      (l.filterMap F).find? q = (l.find? (fun a => ((F a).map q).getD false)).bind F := by
  intro l
  induction l with
  | nil => rfl
  | cons a l ih =>
    cases hF : F a with
    | none =>
      rw [List.filterMap_cons, hF, ih, List.find?_cons_of_neg]
      simp [hF]
    | some b =>
      rw [List.filterMap_cons, hF]
      cases hq : q b with
      | true =>
        rw [List.find?_cons_of_pos _ hq, List.find?_cons_of_pos, Option.some_bind, hF]
        simp [hF, hq]
      | false =>
        rw [List.find?_cons_of_neg _ (by simp [hq]), List.find?_cons_of_neg, ih]
        simp [hF, hq]

theorem find?_filter {α : Type} (p q : α → Bool) :
    ∀ l : List α, (l.filter p).find? q = l.find? (fun a => p a && q a) := by
  intro l
  induction l with
  | nil => rfl
  | cons a l ih =>
    cases hp : p a with
    | true =>
      rw [List.filter_cons_of_pos hp]
      cases hq : q a with
      | true => rw [List.find?_cons_of_pos _ hq, List.find?_cons_of_pos _ (by simp [hp, hq])]
      | false =>
        rw [List.find?_cons_of_neg _ (by simp [hq]),
          List.find?_cons_of_neg _ (by simp [hp, hq]), ih]
    | false =>
      rw [List.filter_cons_of_neg (by simp [hp]), ih,
        List.find?_cons_of_neg _ (by simp [hp])]

theorem updateRows_add_insertEntries (st : List Row) :
    ∀ es : List Entry,
      (updateRows st es).length + (insertEntries st es).length = es.length := by
  intro es
  induction es with
  | nil => rfl
  | cons e es ih =>
    unfold updateRows insertEntries at ih ⊢
    rw [List.filterMap_cons, List.filter_cons]
    cases hl : lookupRow st (entryKey e) <;> simp [hl] <;> omega

theorem updateRows_length_all_some (st : List Row) :
    ∀ es : List Entry, (∀ e ∈ es, (lookupRow st (entryKey e)).isSome) →
      (updateRows st es).length = es.length := by
  intro es
  induction es with
  | nil => intro _; rfl
  | cons e es ih =>
    intro h
    unfold updateRows at ih ⊢
    rw [List.filterMap_cons]
    cases hl : lookupRow st (entryKey e) with
    | none =>
      have := h e (by simp)
      rw [hl] at this
      cases this
    | some r =>
      simp only [Option.map_some', List.length_cons]
      rw [ih (fun x hx => h x (by simp [hx]))]

theorem insertEntries_eq_nil {st : List Row} {es : List Entry}
    (h : ∀ e ∈ es, (lookupRow st (entryKey e)).isSome) : insertEntries st es = [] := by
  unfold insertEntries
  rw [List.filter_eq_nil_iff]
  intro e he
  have := h e he
  cases hl : lookupRow st (entryKey e) with
  | none => rw [hl] at this; cases this
  | some r => simp [hl]

theorem lookupRow_none_iff_not_memKey (st : List Row) (k : List Char × List Char) :
    lookupRow st k = none ↔ k ∉ st.map rowKey := by
  rw [lookupRow_none_iff]
  constructor
  · intro h hk
    obtain ⟨r, hr, hrk⟩ := List.mem_map.mp hk
    exact h r hr hrk
  · intro h r hr hrk
    exact h (List.mem_map.mpr ⟨r, hr, hrk⟩)

theorem insertRowsFrom_ids_nodup (now : Nat) (ids : Nat → Nat)
    (hinj : Function.Injective ids) :
    ∀ (L : List Entry) (j : Nat), ((insertRowsFrom now ids j L).map Row.id).Nodup := by
  intro L
  induction L with
  | nil => intro j; simp [insertRowsFrom]
  | cons e L ih =>
    intro j
    simp only [insertRowsFrom, List.map_cons, List.nodup_cons]
    refine ⟨?_, ih (j + 1)⟩
    intro hmem
    obtain ⟨x, hx, hxid⟩ := List.mem_map.mp hmem
    obtain ⟨m, hm, hid⟩ := insertRowsFrom_mem_id now ids L (j + 1) x hx
    rw [hid] at hxid
    have := hinj hxid
    omega

theorem run1_store_ids_nodup {now1 : Nat} {ids1 : Nat → Nat} {st0 : List Row} {es : List Entry}
    (hnd : (st0.map Row.id).Nodup)
    (hfresh : ∀ j, ids1 j ∉ st0.map Row.id)
    (hinj : Function.Injective ids1) :
    ((st0.map (rowAfter now1 (updateRows st0 es)) ++
        insertRowsFrom now1 ids1 0 (insertEntries st0 es)).map Row.id).Nodup := by
  rw [List.map_append, List.nodup_append]
  refine ⟨?_, insertRowsFrom_ids_nodup now1 ids1 hinj _ 0, ?_⟩
  · rw [List.map_map]
    have hcong : st0.map (Row.id ∘ rowAfter now1 (updateRows st0 es)) = st0.map Row.id :=
      List.map_congr_left (fun r _ => rowAfter_id now1 (updateRows st0 es) r)
    rw [hcong]
    exact hnd
  · intro x hx1 hx2
    rw [List.map_map] at hx1
    obtain ⟨r, hr, hid⟩ := List.mem_map.mp hx1
    obtain ⟨x2, hx2m, hx2id⟩ := List.mem_map.mp hx2
    obtain ⟨m, hm, hid2⟩ := insertRowsFrom_mem_id now1 ids1 _ 0 x2 hx2m
    apply hfresh m
    have hx2v : x = ids1 m := by
      rw [← hx2id, hid2]
      congr 1
      omega
    rw [← hx2v]
    rw [← hid]
    have : Row.id (rowAfter now1 (updateRows st0 es) r) = r.id :=
      rowAfter_id now1 (updateRows st0 es) r
    rw [Function.comp_apply, this]
    exact List.mem_map.mpr ⟨r, hr, rfl⟩

theorem lastUpd_updateRows (st : List Row) (es : List Entry) (i : Nat) :
    lastUpd (updateRows st es) i =
      (es.reverse.find? (fun e =>
          match lookupRow st (entryKey e) with
          | some r => decide (r.id = i)
          | none => false)).map
        (fun e => { english := e.english, traditional := e.traditional, uid := i }) := by
  unfold lastUpd updateRows
  rw [foldl_choice (fun u : UpdRow => u.uid = i)]
  rw [← List.filterMap_reverse, find?_filterMap]
  have hpred : (fun e => (((lookupRow st (entryKey e)).map
        (fun r => ({ english := e.english, traditional := e.traditional,
                     uid := r.id } : UpdRow))).map
        (fun u => decide (u.uid = i))).getD false) =
      (fun e : Entry => match lookupRow st (entryKey e) with
        | some r => decide (r.id = i)
        | none => false) := by
    funext e
    cases hl : lookupRow st (entryKey e) <;> simp [hl]
  rw [hpred]
  cases hf : es.reverse.find? (fun e : Entry => match lookupRow st (entryKey e) with
      | some r => decide (r.id = i)
      | none => false) with
  | none => rfl
  | some e =>
    have hp := List.find?_some hf
    cases hl : lookupRow st (entryKey e) with
    | none => rw [hl] at hp; cases hp
    | some r =>
      rw [hl] at hp
      have hri : r.id = i := of_decide_eq_true hp
      simp [hl, hri]

theorem lookupRow_singleton (x : Row) (k : List Char × List Char) :
    lookupRow [x] k = if rowKey x = k then some x else none := rfl

theorem lookupRow_insertRows (now : Nat) (ids : Nat → Nat) :
    ∀ (L : List Entry) (j : Nat) (k : List Char × List Char) (r : Row),
      lookupRow (insertRowsFrom now ids j L) k = some r →
      ∃ f, L.reverse.find? (fun e => decide (entryKey e = k)) = some f ∧
        r.english = f.english ∧ r.traditional = some f.traditional := by
  intro L
  induction L with
  | nil =>
    intro j k r h
    simp [insertRowsFrom, lookupRow] at h
  | cons e L ih =>
    intro j k r h
    rw [show insertRowsFrom now ids j (e :: L) =
        [insertRow now (ids j) e] ++ insertRowsFrom now ids (j + 1) L from rfl,
      lookupRow_append] at h
    rw [List.reverse_cons, List.find?_append]
    cases hrest : lookupRow (insertRowsFrom now ids (j + 1) L) k with
    | some r2 =>
      rw [hrest] at h
      have hr2 : r2 = r := by
        simpa using h
      obtain ⟨f, hf, hv1, hv2⟩ := ih (j + 1) k r (by rw [hrest, hr2])
      rw [hf]
      exact ⟨f, rfl, hv1, hv2⟩
    | none =>
      rw [hrest] at h
      rw [lookupRow_singleton] at h
      have hLnone : L.reverse.find? (fun e => decide (entryKey e = k)) = none := by
        rw [List.find?_eq_none]
        intro f hf
        have hfk : entryKey f ≠ k := by
          have hnotmem := (lookupRow_none_iff_not_memKey _ k).mp hrest
          rw [insertRowsFrom_map_rowKey] at hnotmem
          intro heq
          exact hnotmem (List.mem_map.mpr ⟨f, List.mem_reverse.mp hf, heq⟩)
        simp [hfk]
      rw [hLnone]
      split at h
      · next hxk =>
        have hrx : r = insertRow now (ids j) e := by simpa using h.symm
        have hek : entryKey e = k := by
          rw [← rowKey_insertRow now (ids j) e]
          exact hxk
        refine ⟨e, ?_, by rw [hrx]; rfl, by rw [hrx]; rfl⟩
        simp [hek]
      · cases h

theorem fixedpoint_values {now1 : Nat} {ids1 : Nat → Nat} {st0 : List Row} {es : List Entry}
    (hnd : (st0.map Row.id).Nodup)
    (hfresh : ∀ j, ids1 j ∉ st0.map Row.id)
    (hinj : Function.Injective ids1) :
    ∀ {a : Row} {u : UpdRow},
      a ∈ st0.map (rowAfter now1 (updateRows st0 es)) ++
        insertRowsFrom now1 ids1 0 (insertEntries st0 es) →
      lastUpd (updateRows (st0.map (rowAfter now1 (updateRows st0 es)) ++
        insertRowsFrom now1 ids1 0 (insertEntries st0 es)) es) a.id = some u →
      u.english = a.english ∧ some u.traditional = a.traditional := by
  intro a u ha hu
  have hnd1 := @run1_store_ids_nodup now1 ids1 st0 es hnd hfresh hinj
  rw [lastUpd_updateRows] at hu
  cases hf : es.reverse.find? (fun e : Entry =>
      match lookupRow (st0.map (rowAfter now1 (updateRows st0 es)) ++
          insertRowsFrom now1 ids1 0 (insertEntries st0 es)) (entryKey e) with
      | some r => decide (r.id = a.id)
      | none => false) with
  | none => rw [hf] at hu; cases hu
  | some estar =>
    rw [hf] at hu
    have hu2 : u = UpdRow.mk estar.english estar.traditional a.id := by
      simpa using hu.symm
    have hp := List.find?_some hf
    cases hl : lookupRow (st0.map (rowAfter now1 (updateRows st0 es)) ++
        insertRowsFrom now1 ids1 0 (insertEntries st0 es)) (entryKey estar) with
    | none => rw [hl] at hp; cases hp
    | some rstar =>
      rw [hl] at hp
      have hrid : rstar.id = a.id := of_decide_eq_true hp
      obtain ⟨hrmem, hrkey⟩ := lookupRow_mem hl
      have hra : rstar = a := List.inj_on_of_nodup_map hnd1 hrmem ha hrid
      rw [hra] at hl hrkey
      -- the find? predicate is equivalent to key equality with entryKey estar
      have hPeq : (fun e : Entry =>
          match lookupRow (st0.map (rowAfter now1 (updateRows st0 es)) ++
              insertRowsFrom now1 ids1 0 (insertEntries st0 es)) (entryKey e) with
          | some r => decide (r.id = a.id)
          | none => false) =
          (fun e : Entry => decide (entryKey e = entryKey estar)) := by
        funext e
        by_cases hek : entryKey e = entryKey estar
        · rw [hek, hl]
          simp [hek]
        · cases hle : lookupRow (st0.map (rowAfter now1 (updateRows st0 es)) ++
              insertRowsFrom now1 ids1 0 (insertEntries st0 es)) (entryKey e) with
          | none => simp [hek]
          | some r2 =>
            obtain ⟨hm2, hk2⟩ := lookupRow_mem hle
            have hr2a : ¬ (r2.id = a.id) := by
              intro hid
              have : r2 = a := List.inj_on_of_nodup_map hnd1 hm2 ha hid
              rw [this] at hk2
              exact hek (hk2.symm.trans hrkey)
            simp [hek, hr2a]
      rw [hPeq] at hf
      rw [lookupRow_append] at hl
      cases hNR : lookupRow (insertRowsFrom now1 ids1 0 (insertEntries st0 es))
          (entryKey estar) with
      | some rn =>
        rw [hNR] at hl
        have hrna : rn = a := by simpa using hl
        obtain ⟨f, hff, hfe, hft⟩ :=
          lookupRow_insertRows now1 ids1 (insertEntries st0 es) 0 (entryKey estar) rn hNR
        have hk0 : lookupRow st0 (entryKey estar) = none := by
          obtain ⟨hrnmem, hrnkey⟩ := lookupRow_mem hNR
          have hkin : entryKey estar ∈ (insertEntries st0 es).map entryKey := by
            rw [← insertRowsFrom_map_rowKey now1 ids1 _ 0]
            exact List.mem_map.mpr ⟨rn, hrnmem, hrnkey⟩
          obtain ⟨f0, hf0, hf0k⟩ := List.mem_map.mp hkin
          have hker := (List.mem_filter.mp hf0).2
          rw [hf0k] at hker
          cases hx : lookupRow st0 (entryKey estar) with
          | none => rfl
          | some r0 => rw [hx] at hker; cases hker
        rw [show insertEntries st0 es =
            es.filter (fun e => (lookupRow st0 (entryKey e)).isNone) from rfl,
          ← List.filter_reverse, find?_filter] at hff
        have hpeq2 : (fun e : Entry => (lookupRow st0 (entryKey e)).isNone &&
            decide (entryKey e = entryKey estar)) =
            (fun e : Entry => decide (entryKey e = entryKey estar)) := by
          funext e
          by_cases hek : entryKey e = entryKey estar
          · rw [hek, hk0]
            simp [hek]
          · simp [hek]
        rw [hpeq2, hf] at hff
        have hfestar : f = estar := by simpa using hff.symm
        rw [hu2, ← hrna, hfe, hft, hfestar]
        exact ⟨rfl, rfl⟩
      | none =>
        rw [hNR] at hl
        have hl2 : lookupRow (st0.map (rowAfter now1 (updateRows st0 es)))
            (entryKey estar) = some a := by simpa using hl
        rw [lookupRow_map (fun r => rowKey_rowAfter now1 (updateRows st0 es) r)] at hl2
        cases hl0 : lookupRow st0 (entryKey estar) with
        | none => rw [hl0] at hl2; cases hl2
        | some r0 =>
          rw [hl0] at hl2
          have hag : a = rowAfter now1 (updateRows st0 es) r0 := by simpa using hl2.symm
          obtain ⟨hr0mem, hr0key⟩ := lookupRow_mem hl0
          have hP0 : (fun e : Entry =>
              match lookupRow st0 (entryKey e) with
              | some r => decide (r.id = r0.id)
              | none => false) =
              (fun e : Entry => decide (entryKey e = entryKey estar)) := by
            funext e
            by_cases hek : entryKey e = entryKey estar
            · rw [hek, hl0]
              simp [hek]
            · cases hle : lookupRow st0 (entryKey e) with
              | none => simp [hek]
              | some r2 =>
                obtain ⟨hm2, hk2⟩ := lookupRow_mem hle
                have hr2r0 : ¬ (r2.id = r0.id) := by
                  intro hid
                  have : r2 = r0 := List.inj_on_of_nodup_map hnd hm2 hr0mem hid
                  rw [this] at hk2
                  exact hek (by rw [← hk2, hr0key])
                simp [hek, hr2r0]
          have hrow := rowAfter_eq_lastUpd now1 (updateRows st0 es) r0
          rw [lastUpd_updateRows st0 es r0.id, hP0, hf] at hrow
          simp only [Option.map_some'] at hrow
          rw [hu2, hag, hrow]
          exact ⟨rfl, rfl⟩

/-- C1: idempotence of the merge/apply pipeline — after a completed
run over a store with distinct ids and fresh uuids, a second run of the
same source over the enriched store classifies every entry as an update
(zero inserts, updated = all entries), appends no rows, and leaves
every row of the store with byte-identical gloss and alternate form. -/
theorem c1_idempotent {now1 now2 : Nat} {ids1 ids2 : Nat → Nat} {src : List (List Char)}
    {st0 : List Row} {r1 : RunResult}
    (hnd : (st0.map Row.id).Nodup)
    (hfresh : ∀ j, ids1 j ∉ st0.map Row.id)
    (hinj : Function.Injective ids1)
    (h1 : runImport now1 ids1 src st0 = some r1) :
    ∃ r2, runImport now2 ids2 src r1.store = some r2 ∧
      r2.inserted = 0 ∧ r2.updated = r1.updated + r1.inserted ∧
      r2.store.length = r1.store.length ∧
      ∀ (n : Nat) (a b : Row), r1.store[n]? = some a → r2.store[n]? = some b →
        b.english = a.english ∧ b.traditional = a.traditional := by
  obtain ⟨es, hes⟩ := runImport_entriesOf h1
  obtain ⟨hstore1, hupd1, hins1, _⟩ := runImport_spec hes h1
  have hpresent : ∀ e ∈ es, (lookupRow r1.store (entryKey e)).isSome := by
    intro e he
    rw [hstore1, lookupRow_append]
    cases hl0 : lookupRow st0 (entryKey e) with
    | some r =>
      rw [lookupRow_map (fun r => rowKey_rowAfter now1 (updateRows st0 es) r), hl0]
      cases lookupRow (insertRowsFrom now1 ids1 0 (insertEntries st0 es)) (entryKey e) <;> rfl
    | none =>
      have hmem : e ∈ insertEntries st0 es := List.mem_filter.mpr ⟨he, by simp [hl0]⟩
      have hk : entryKey e ∈ (insertRowsFrom now1 ids1 0 (insertEntries st0 es)).map rowKey := by
        rw [insertRowsFrom_map_rowKey]
        exact List.mem_map.mpr ⟨e, hmem, rfl⟩
      cases hNR : lookupRow (insertRowsFrom now1 ids1 0 (insertEntries st0 es))
          (entryKey e) with
      | none => exact absurd hk ((lookupRow_none_iff_not_memKey _ _).mp hNR)
      | some rn => rfl
  have h2 : runImport now2 ids2 src r1.store = some
      { store := appendChunks (applyUpdates now2 r1.store (updateRows r1.store es))
          (insertRowsFrom now2 ids2 0 (insertEntries r1.store es)),
        updated := countChunks (updateRows r1.store es),
        inserted := countChunks (insertRowsFrom now2 ids2 0 (insertEntries r1.store es)),
        skipped := 0 } := by
    unfold runImport
    rw [hes]
  have hnil : insertEntries r1.store es = [] := insertEntries_eq_nil hpresent
  refine ⟨_, h2, ?_, ?_, ?_, ?_⟩
  · simp [hnil, insertRowsFrom, countChunks_eq]
  · simp only [countChunks_eq]
    rw [updateRows_length_all_some _ _ hpresent, hupd1, hins1]
    exact (updateRows_add_insertEntries st0 es).symm
  · simp only [hnil, insertRowsFrom, appendChunks_eq, applyUpdates_eq, foldlUpd_eq_map]
    simp
  · intro n a b ha hb
    simp only [hnil, insertRowsFrom, appendChunks_eq, applyUpdates_eq, foldlUpd_eq_map,
      List.append_nil] at hb
    rw [List.getElem?_map, ha] at hb
    have hb2 : b = rowAfter now2 (updateRows r1.store es) a := by
      simpa using hb.symm
    have hamem : a ∈ r1.store := List.getElem?_mem ha
    rw [hb2, rowAfter_eq_lastUpd]
    cases hlu : lastUpd (updateRows r1.store es) a.id with
    | none => exact ⟨rfl, rfl⟩
    | some u =>
      rw [hstore1] at hamem hlu
      obtain ⟨h1v, h2v⟩ := fixedpoint_values hnd hfresh hinj hamem hlu
      exact ⟨h1v, h2v⟩

/-- Witness for C1: a second run of witSrc over the store enriched by
the first run is a fixed point. -/
theorem c1_witness :
    runImport 7 witIds witSrc [] = some witResEmpty ∧
    (∃ r2, runImport 8 witIds2 witSrc witResEmpty.store = some r2 ∧
      r2.inserted = 0 ∧ r2.updated = witResEmpty.updated + witResEmpty.inserted ∧
      r2.store.length = witResEmpty.store.length ∧
      ∀ (n : Nat) (a b : Row), witResEmpty.store[n]? = some a → r2.store[n]? = some b →
        b.english = a.english ∧ b.traditional = a.traditional) := by
  refine ⟨by decide, ?_⟩
  exact c1_idempotent (by decide) (fun j => by simp)
    (fun a b hab => by simpa [witIds] using hab)
    (show runImport 7 witIds witSrc [] = some witResEmpty by decide)

/-! ## Tone converter lemmas -/

theorem lettersClass_not_colon : ∀ c ∈ classChars, c ≠ ':' ∧ c.isDigit = false := by decide

theorem lettersClass_mem {c : Char} (h : lettersClass c = true) : c ∈ classChars := by
  unfold lettersClass at h
  exact List.elem_iff.mp h

theorem pyReplace2_of_not_mem (a b r : Char) :
    ∀ l : List Char, b ∉ l → pyReplace2 a b r l = l := by
  intro l
  induction l with
  | nil => intro _; rfl
  | cons c tl ih =>
    intro h
    cases tl with
    | nil => rfl
    | cons c2 rest =>
      have hc2 : c2 ≠ b := fun he => h (by simp [he])
      have hcond : ¬ ((c = a && c2 = b) = true) := by simp [hc2]
      simp only [pyReplace2, if_neg hcond]
      rw [ih (fun hm => h (List.mem_cons_of_mem c hm))]

theorem colon_not_mem {letters : List Char} (hall : letters.all lettersClass = true)
    {d : Char} (hd : d.isDigit = true) : ':' ∉ letters ++ [d] := by
  intro hmem
  rcases List.mem_append.mp hmem with hm | hm
  · have := (lettersClass_not_colon ':'
      (lettersClass_mem ((List.all_eq_true.mp hall) ':' hm))).1
    exact this rfl
  · have hd2 : ':' = d := by simpa using hm
    rw [← hd2] at hd
    cases hd

theorem matchLettersDigit_append {letters : List Char} (hall : letters.all lettersClass = true)
    (hne : letters ≠ []) {d : Char} (hd : d.isDigit = true) :
    matchLettersDigit (letters ++ [d]) = some (letters, d) := by
  unfold matchLettersDigit
  rw [List.getLast?_concat, List.dropLast_concat]
  simp [hd, hne, hall]

theorem convertSyllable_append {letters : List Char} (hall : letters.all lettersClass = true)
    (hne : letters ≠ []) {d : Char} (hd : d.isDigit = true) :
    convertSyllable (letters ++ [d]) =
      (if d.toNat - 48 = 5 || d.toNat - 48 = 0 then some letters
       else
        match findVowel (letters.map pyLower) with
        | none => some letters
        | some (j, vc) =>
          match toneMarks vc with
          | none => some letters
          | some marks =>
            match marks[d.toNat - 48 - 1]? with
            | none => none
            | some m =>
              match letters[j]? with
              | none => none
              | some orig =>
                some (letters.set j (if pyIsUpper orig then pyUpper m else m))) := by
  simp only [convertSyllable, pyReplace2_of_not_mem 'u' ':' 'ü' _ (colon_not_mem hall hd),
    pyReplace2_of_not_mem 'U' ':' 'Ü' _ (colon_not_mem hall hd),
    matchLettersDigit_append hall hne hd]

theorem firstIdxOf_get {c : Char} :
    ∀ {l : List Char} {j : Nat}, firstIdxOf c l = some j → l[j]? = some c := by
  intro l
  induction l with
  | nil => intro j h; cases h
  | cons x rest ih =>
    intro j h
    unfold firstIdxOf at h
    split at h
    · next hx =>
      have : j = 0 := by simpa using h.symm
      subst this
      simp [hx]
    · cases hr : firstIdxOf c rest with
      | none => rw [hr] at h; cases h
      | some j2 =>
        rw [hr] at h
        have : j = j2 + 1 := by simpa using h.symm
        subst this
        simpa using ih hr

theorem firstIdxOf_isSome_iff {c : Char} :
    ∀ l : List Char, (firstIdxOf c l).isSome = l.contains c := by
  intro l
  induction l with
  | nil => rfl
  | cons x rest ih =>
    unfold firstIdxOf
    by_cases hx : x = c
    · simp [hx]
    · have hx2 : ¬ c = x := fun h => hx h.symm
      simp only [if_neg hx, List.contains_cons]
      rw [← ih]
      cases firstIdxOf c rest <;> simp [hx, hx2]

theorem hasOU_mem_o : ∀ l : List Char, hasOU l = true → 'o' ∈ l := by
  intro l
  induction l with
  | nil => intro h; cases h
  | cons c tl ih =>
    cases tl with
    | nil => intro h; cases h
    | cons c2 rest =>
      intro h
      simp only [hasOU, Bool.or_eq_true, Bool.and_eq_true, decide_eq_true_eq] at h
      rcases h with ⟨hc, _⟩ | h
      · rw [hc]; exact List.mem_cons_self _ _
      · exact List.mem_cons_of_mem c (ih (by simpa [hasOU] using h))

theorem lastToneIdx_get :
    ∀ {l : List Char} {j : Nat} {v : Char}, lastToneIdx l = some (j, v) →
      l[j]? = some v ∧ (toneMarks v).isSome = true := by
  intro l
  induction l with
  | nil => intro j v h; cases h
  | cons c rest ih =>
    intro j v h
    unfold lastToneIdx at h
    cases hr : lastToneIdx rest with
    | some p =>
      obtain ⟨j2, v2⟩ := p
      rw [hr] at h
      simp only [Option.some.injEq, Prod.mk.injEq] at h
      obtain ⟨hj, hv⟩ := h
      subst hj; subst hv
      simpa using ih hr
    | none =>
      rw [hr] at h
      by_cases hsome : (toneMarks c).isSome = true
      · rw [if_pos hsome] at h
        simp only [Option.some.injEq, Prod.mk.injEq] at h
        obtain ⟨hj, hv⟩ := h
        subst hj; subst hv
        exact ⟨by simp, hsome⟩
      · rw [if_neg hsome] at h
        cases h

theorem lastIdxIn_get {S : List Char} :
    ∀ {l : List Char} {j : Nat} {v : Char}, lastIdxIn S l = some (j, v) →
      l[j]? = some v ∧ S.contains v = true := by
  intro l
  induction l with
  | nil => intro j v h; cases h
  | cons c rest ih =>
    intro j v h
    unfold lastIdxIn at h
    cases hr : lastIdxIn S rest with
    | some p =>
      obtain ⟨j2, v2⟩ := p
      rw [hr] at h
      simp only [Option.some.injEq, Prod.mk.injEq] at h
      obtain ⟨hj, hv⟩ := h
      subst hj; subst hv
      simpa using ih hr
    | none =>
      rw [hr] at h
      by_cases hsome : S.contains c = true
      · rw [if_pos hsome] at h
        simp only [Option.some.injEq, Prod.mk.injEq] at h
        obtain ⟨hj, hv⟩ := h
        subst hj; subst hv
        exact ⟨by simp, hsome⟩
      · rw [if_neg hsome] at h
        cases h

theorem lastIdxIn_isSome {S : List Char} :
    ∀ l : List Char, (∃ c ∈ l, S.contains c = true) → (lastIdxIn S l).isSome = true := by
  intro l
  induction l with
  | nil => intro h; obtain ⟨c, hc, _⟩ := h; cases hc
  | cons c rest ih =>
    intro h
    unfold lastIdxIn
    cases hr : lastIdxIn S rest with
    | some p => simp
    | none =>
      obtain ⟨c2, hc2, hS⟩ := h
      rcases List.mem_cons.mp hc2 with hc2 | hc2
      · rw [hc2] at hS
        simp [hS, List.elem_iff.mp hS]
      · have := ih ⟨c2, hc2, hS⟩
        rw [hr] at this
        cases this

theorem toneMarks_isSome_iff : ∀ c : Char, (toneMarks c).isSome = vowelSetSpec.contains c := by
  intro c
  unfold toneMarks vowelSetSpec
  split_ifs with h1 h2 h3 h4 h5 h6 h7 <;>
    simp_all [List.contains_cons]

theorem lastToneIdx_eq_lastIdxIn : ∀ l : List Char, lastToneIdx l = lastIdxIn vowelSetSpec l := by
  intro l
  induction l with
  | nil => rfl
  | cons c rest ih =>
    unfold lastToneIdx lastIdxIn
    rw [ih, toneMarks_isSome_iff]

theorem findVowel_eq_spec : ∀ l : List Char, findVowel l = specSelectVowel l := by
  intro l
  unfold findVowel specSelectVowel
  by_cases hca : l.contains 'a' = true
  · rw [if_pos hca]
    have hsome : (firstIdxOf 'a' l).isSome = true := by
      rw [firstIdxOf_isSome_iff]; exact hca
    obtain ⟨j, hj⟩ := Option.isSome_iff_exists.mp hsome
    rw [hj]
    rfl
  · rw [if_neg hca]
    have hfa : firstIdxOf 'a' l = none := by
      cases hx : firstIdxOf 'a' l with
      | none => rfl
      | some j => exact absurd (by rw [← firstIdxOf_isSome_iff, hx]; rfl) hca
    rw [hfa]
    by_cases hce : l.contains 'e' = true
    · rw [if_pos hce]
      have hsome : (firstIdxOf 'e' l).isSome = true := by
        rw [firstIdxOf_isSome_iff]; exact hce
      obtain ⟨j, hj⟩ := Option.isSome_iff_exists.mp hsome
      rw [hj]
      rfl
    · rw [if_neg hce]
      have hfe : firstIdxOf 'e' l = none := by
        cases hx : firstIdxOf 'e' l with
        | none => rfl
        | some j => exact absurd (by rw [← firstIdxOf_isSome_iff, hx]; rfl) hce
      rw [hfe]
      by_cases hou : hasOU l = true
      · rw [if_pos hou, if_pos hou]
      · rw [if_neg hou, if_neg hou, lastToneIdx_eq_lastIdxIn]

theorem findVowel_get {l : List Char} {j : Nat} {v : Char}
    (h : findVowel l = some (j, v)) : l[j]? = some v ∧ (toneMarks v).isSome = true := by
  unfold findVowel at h
  cases hfa : firstIdxOf 'a' l with
  | some j2 =>
    rw [hfa] at h
    simp only [Option.some.injEq, Prod.mk.injEq] at h
    obtain ⟨hj, hv⟩ := h
    subst hj; subst hv
    exact ⟨firstIdxOf_get hfa, by decide⟩
  | none =>
    rw [hfa] at h
    cases hfe : firstIdxOf 'e' l with
    | some j2 =>
      rw [hfe] at h
      simp only [Option.some.injEq, Prod.mk.injEq] at h
      obtain ⟨hj, hv⟩ := h
      subst hj; subst hv
      exact ⟨firstIdxOf_get hfe, by decide⟩
    | none =>
      rw [hfe] at h
      by_cases hou : hasOU l = true
      · rw [if_pos hou] at h
        cases hfo : firstIdxOf 'o' l with
        | none => rw [hfo] at h; cases h
        | some j2 =>
          rw [hfo] at h
          simp only [Option.map_some', Option.some.injEq, Prod.mk.injEq] at h
          obtain ⟨hj, hv⟩ := h
          subst hj; subst hv
          exact ⟨firstIdxOf_get hfo, by decide⟩
      · rw [if_neg hou, lastToneIdx_eq_lastIdxIn] at h
        obtain ⟨hg, hc⟩ := lastIdxIn_get h
        exact ⟨hg, by rw [toneMarks_isSome_iff]; exact hc⟩

theorem toneMarks_length {v : Char} {ms : List Char} (h : toneMarks v = some ms) :
    ms.length = 4 := by
  unfold toneMarks at h
  split_ifs at h <;> (cases h; try rfl)

theorem toneMarks_get {v : Char} {ms : List Char} (h : toneMarks v = some ms)
    {t : Nat} (ht1 : 1 ≤ t) (ht4 : t ≤ 4) : ms[t - 1]? = some (specMark v t) := by
  have hlen : ms.length = 4 := toneMarks_length h
  have hidx : t - 1 < ms.length := by omega
  rw [List.getElem?_eq_getElem hidx]
  unfold specMark
  rw [h]
  congr 1
  show ms[t - 1] = ms.getD (t - 1) v
  rw [List.getD_eq_getElem?_getD, List.getElem?_eq_getElem hidx]
  rfl

theorem convertSyllable_marked {letters : List Char} (hall : letters.all lettersClass = true)
    (hne : letters ≠ []) {t j : Nat} {v : Char} (ht1 : 1 ≤ t) (ht4 : t ≤ 4)
    (hsel : findVowel (letters.map pyLower) = some (j, v)) :
    ∃ orig, letters[j]? = some orig ∧ pyLower orig = v ∧
      convertSyllable (letters ++ [digitChar t]) =
        some (letters.set j (if pyIsUpper orig then pyUpper (specMark v t)
          else specMark v t)) := by
  have hd : (digitChar t).isDigit = true := by interval_cases t <;> decide
  have htn : (digitChar t).toNat - 48 = t := by interval_cases t <;> decide
  obtain ⟨hget, hsome⟩ := findVowel_get hsel
  rw [List.getElem?_map] at hget
  cases horig : letters[j]? with
  | none => rw [horig] at hget; cases hget
  | some orig =>
    rw [horig] at hget
    have hplv : pyLower orig = v := by simpa using hget
    obtain ⟨ms, hms⟩ := Option.isSome_iff_exists.mp hsome
    refine ⟨orig, rfl, hplv, ?_⟩
    rw [convertSyllable_append hall hne hd, htn]
    rw [if_neg (by simp; omega)]
    simp only [hsel, hms, toneMarks_get hms ht1 ht4, horig]

theorem convertSyllable_unmarked {letters : List Char} (hall : letters.all lettersClass = true)
    (hne : letters ≠ []) {t : Nat} (ht1 : 1 ≤ t) (ht4 : t ≤ 4)
    (hsel : findVowel (letters.map pyLower) = none) :
    convertSyllable (letters ++ [digitChar t]) = some letters := by
  have hd : (digitChar t).isDigit = true := by interval_cases t <;> decide
  have htn : (digitChar t).toNat - 48 = t := by interval_cases t <;> decide
  rw [convertSyllable_append hall hne hd, htn, if_neg (by simp; omega), hsel]

/-- C7 (amended): for tones 1 to 4 the marked vowel is selected by
priority a, else e, else the first o when the substring ou occurs,
else the last character of {a,e,i,o,u,ü,v} scanning from the end (the
key v receives the u-umlaut diacritics), and the letters are returned
unmarked exactly when no character of that extended set occurs. -/
theorem c7_selection (letters : List Char) (hall : letters.all lettersClass = true)
    (hne : letters ≠ []) (t : Nat) (ht1 : 1 ≤ t) (ht4 : t ≤ 4) :
    (∀ (j : Nat) (v : Char), specSelectVowel (letters.map pyLower) = some (j, v) →
      ∃ orig, letters[j]? = some orig ∧ pyLower orig = v ∧
        convertSyllable (letters ++ [digitChar t]) =
          some (letters.set j (if pyIsUpper orig then pyUpper (specMark v t)
            else specMark v t))) ∧
    (specSelectVowel (letters.map pyLower) = none →
      convertSyllable (letters ++ [digitChar t]) = some letters) := by
  constructor
  · intro j v hsel
    rw [← findVowel_eq_spec] at hsel
    exact convertSyllable_marked hall hne ht1 ht4 hsel
  · intro hsel
    rw [← findVowel_eq_spec] at hsel
    exact convertSyllable_unmarked hall hne ht1 ht4 hsel

theorem specSelect_isSome {l : List Char} (h : ∃ c ∈ l, vowelSetSpec.contains c = true) :
    (specSelectVowel l).isSome = true := by
  unfold specSelectVowel
  by_cases hca : l.contains 'a' = true
  · rw [if_pos hca]
    have hs : (firstIdxOf 'a' l).isSome = true := by rw [firstIdxOf_isSome_iff]; exact hca
    obtain ⟨j, hj⟩ := Option.isSome_iff_exists.mp hs
    rw [hj]
    rfl
  · rw [if_neg hca]
    by_cases hce : l.contains 'e' = true
    · rw [if_pos hce]
      have hs : (firstIdxOf 'e' l).isSome = true := by rw [firstIdxOf_isSome_iff]; exact hce
      obtain ⟨j, hj⟩ := Option.isSome_iff_exists.mp hs
      rw [hj]
      rfl
    · rw [if_neg hce]
      by_cases hou : hasOU l = true
      · rw [if_pos hou]
        have hco : l.contains 'o' = true := List.elem_iff.mpr (hasOU_mem_o l hou)
        have hs : (firstIdxOf 'o' l).isSome = true := by rw [firstIdxOf_isSome_iff]; exact hco
        obtain ⟨j, hj⟩ := Option.isSome_iff_exists.mp hs
        rw [hj]
        rfl
      · rw [if_neg hou]
        exact lastIdxIn_isSome l h

theorem mark_ne_orig : ∀ orig ∈ classChars, ∀ t ∈ [1, 2, 3, 4],
    (toneMarks (pyLower orig)).isSome = true →
    (if pyIsUpper orig then pyUpper (specMark (pyLower orig) t)
     else specMark (pyLower orig) t) ≠ orig := by decide

/-- C8 (amended): convert("ni3") is "nǐ"; for every class syllable
with tone digit 1 to 4 containing a character of {a,e,i,o,u,ü,v}
(case-insensitively), the output differs from the digit-stripped
letters in exactly one position, which carries the tone diacritic
(1 macron, 2 acute, 3 caron, 4 grave) of the selected base vowel with
the original case preserved; digits 5 and 0 return the letters
unchanged. -/
theorem c8_tone_shape :
    convertPinyin "ni3".toList = some "nǐ".toList ∧
    (∀ letters : List Char, letters.all lettersClass = true → letters ≠ [] →
      (∃ c ∈ letters, vowelSetSpec.contains (pyLower c) = true) →
      ∀ t : Nat, 1 ≤ t → t ≤ 4 →
      ∃ (j : Nat) (orig m : Char), letters[j]? = some orig ∧ m ≠ orig ∧
        m = (if pyIsUpper orig then pyUpper (specMark (pyLower orig) t)
             else specMark (pyLower orig) t) ∧
        convertSyllable (letters ++ [digitChar t]) = some (letters.set j m)) ∧
    (∀ letters : List Char, letters.all lettersClass = true → letters ≠ [] →
      convertSyllable (letters ++ ['5']) = some letters ∧
      convertSyllable (letters ++ ['0']) = some letters) := by
  refine ⟨by decide, ?_, ?_⟩
  · intro letters hall hne hv t ht1 ht4
    have hsel : (specSelectVowel (letters.map pyLower)).isSome = true := by
      apply specSelect_isSome
      obtain ⟨c, hc, hS⟩ := hv
      exact ⟨pyLower c, List.mem_map.mpr ⟨c, hc, rfl⟩, hS⟩
    obtain ⟨jv, hjv⟩ := Option.isSome_iff_exists.mp hsel
    obtain ⟨j, v⟩ := jv
    rw [← findVowel_eq_spec] at hjv
    obtain ⟨hgetv, hsomev⟩ := findVowel_get hjv
    obtain ⟨orig, horig, hplv, hconv⟩ := convertSyllable_marked hall hne ht1 ht4 hjv
    have homem : orig ∈ classChars :=
      lettersClass_mem ((List.all_eq_true.mp hall) orig (List.getElem?_mem horig))
    have htmem : t ∈ [1, 2, 3, 4] := by
      interval_cases t <;> decide
    refine ⟨j, orig, _, horig, ?_, rfl, ?_⟩
    · exact mark_ne_orig orig homem t htmem (by rw [hplv]; exact hsomev)
    · rw [← hplv] at hconv
      exact hconv
  · intro letters hall hne
    constructor
    · rw [convertSyllable_append hall hne (show Char.isDigit '5' = true by decide),
        if_pos (by decide)]
    · rw [convertSyllable_append hall hne (show Char.isDigit '0' = true by decide),
        if_pos (by decide)]

theorem lowerSyl_sub_class : ∀ c ∈ lowerSylChars, lettersClass c = true := by decide

theorem lowerSyl_strip : ∀ c ∈ lowerSylChars, stripRepl c = c ∧ isDigit15 c = false := by decide

theorem lowerSyl_lower : ∀ c ∈ lowerSylChars, pyLower c = c ∧ pyIsUpper c = false := by decide

theorem vowel_strip_mark : ∀ v ∈ lowerSylChars, ∀ t ∈ [1, 2, 3, 4],
    stripRepl (specMark v t) = v ∧ isDigit15 (specMark v t) = false := by decide

theorem set_getElem?_self {α : Type} :
    ∀ (l : List α) (j : Nat) (a : α), l[j]? = some a → l.set j a = l := by
  intro l
  induction l with
  | nil => intro j a h; cases h
  | cons x rest ih =>
    intro j a h
    cases j with
    | zero =>
      have hx : x = a := by simpa using h
      rw [← hx]
      rfl
    | succ j =>
      have := ih j a (by simpa using h)
      simp only [List.set_cons_succ, this]

theorem stripTones_of_plain {l : List Char}
    (h : ∀ c ∈ l, stripRepl c = c ∧ isDigit15 c = false) : stripTones l = l := by
  unfold stripTones
  have hmap : l.map stripRepl = l := by
    rw [show l.map stripRepl = l.map (fun c => c) from
      List.map_congr_left (fun c hc => (h c hc).1), List.map_id']
  rw [hmap]
  exact List.filter_eq_self.mpr (fun c hc => by simp [(h c hc).2])

/-- C9 (amended): strip_tones maps each lowercase diacritic-marked
vowel to its base letter and removes the digits 1 to 5 only (uppercase
marked vowels and digits 0 and 6 to 9 pass through); on a converted
syllable whose letters are lowercase and contain no v, stripping
reproduces the original letters exactly. -/
theorem c9_strip_roundtrip (letters : List Char)
    (hlow : letters.all (fun c => lowerSylChars.contains c) = true)
    (hne : letters ≠ []) (d : Char) (hd : d.isDigit = true) (out : List Char)
    (hconv : convertSyllable (letters ++ [d]) = some out) :
    stripTones out = letters := by
  have hmem : ∀ c ∈ letters, c ∈ lowerSylChars := fun c hc =>
    List.elem_iff.mp ((List.all_eq_true.mp hlow) c hc)
  have hall : letters.all lettersClass = true :=
    List.all_eq_true.mpr (fun c hc => lowerSyl_sub_class c (hmem c hc))
  have hplain : ∀ c ∈ letters, stripRepl c = c ∧ isDigit15 c = false :=
    fun c hc => lowerSyl_strip c (hmem c hc)
  rw [convertSyllable_append hall hne hd] at hconv
  by_cases h50 : (decide (d.toNat - 48 = 5) || decide (d.toNat - 48 = 0)) = true
  · rw [if_pos h50] at hconv
    have hout : out = letters := by simpa using hconv.symm
    rw [hout]
    exact stripTones_of_plain hplain
  · rw [if_neg h50] at hconv
    cases hfv : findVowel (letters.map pyLower) with
    | none =>
      rw [hfv] at hconv
      have hout : out = letters := by simpa using hconv.symm
      rw [hout]
      exact stripTones_of_plain hplain
    | some jv =>
      obtain ⟨j, v⟩ := jv
      rw [hfv] at hconv
      obtain ⟨hget, hsome⟩ := findVowel_get hfv
      rw [List.getElem?_map] at hget
      cases horig : letters[j]? with
      | none => rw [horig] at hget; cases hget
      | some orig =>
        rw [horig] at hget
        have hplv : pyLower orig = v := by simpa using hget
        have homem : orig ∈ lowerSylChars := hmem orig (List.getElem?_mem horig)
        have hlo := lowerSyl_lower orig homem
        have hvo : v = orig := by rw [← hplv, hlo.1]
        obtain ⟨ms, hms⟩ := Option.isSome_iff_exists.mp hsome
        simp only [hms] at hconv
        cases hidx : ms[d.toNat - 48 - 1]? with
        | none =>
          simp only [hidx] at hconv
          exact Option.noConfusion hconv
        | some m =>
          simp only [hidx, horig, hlo.2, Bool.false_eq_true, if_false,
            Option.some.injEq] at hconv
          have hout : out = letters.set j m := hconv.symm
          have hmslen : ms.length = 4 := toneMarks_length hms
          have ht1 : 1 ≤ d.toNat - 48 := by
            rcases Nat.eq_zero_or_pos (d.toNat - 48) with h0 | h1
            · exact absurd (by simp [h0]) h50
            · exact h1
          have ht4 : d.toNat - 48 ≤ 4 := by
            by_contra hgt
            have hnone : ms[d.toNat - 48 - 1]? = none :=
              List.getElem?_eq_none (by omega)
            rw [hnone] at hidx
            cases hidx
          have hm : m = specMark v (d.toNat - 48) := by
            have h2 := toneMarks_get hms ht1 ht4
            rw [hidx] at h2
            simpa using h2
          have htmem : d.toNat - 48 ∈ [1, 2, 3, 4] := by
            interval_cases h : (d.toNat - 48) <;> decide
          have hsm := vowel_strip_mark v (hvo ▸ homem) (d.toNat - 48) htmem
          have hmapid : letters.map stripRepl = letters := by
            rw [show letters.map stripRepl = letters.map (fun c => c) from
              List.map_congr_left (fun c hc => (hplain c hc).1), List.map_id']
          rw [hout, hm]
          unfold stripTones
          rw [List.map_set, hmapid, hsm.1, hvo, set_getElem?_self letters j orig horig]
          exact List.filter_eq_self.mpr (fun c hc => by simp [(hplain c hc).2])

/-- Witness for the amended C7: the a-priority branch on `ma3` and the
no-eligible-character fallback on `xyz1`. -/
theorem c7_witness :
    (∃ orig, ("ma".toList)[1]? = some orig ∧ pyLower orig = 'a' ∧
      convertSyllable ("ma".toList ++ [digitChar 3]) =
        some (("ma".toList).set 1 (if pyIsUpper orig then pyUpper (specMark 'a' 3)
          else specMark 'a' 3))) ∧
    convertSyllable ("xyz".toList ++ [digitChar 1]) = some "xyz".toList := by
  constructor
  · exact (c7_selection "ma".toList (by decide) (by decide) 3 (by decide) (by decide)).1 1 'a'
      (show specSelectVowel (("ma".toList).map pyLower) = some (1, 'a') by decide)
  · exact (c7_selection "xyz".toList (by decide) (by decide) 1 (by decide) (by decide)).2
      (show specSelectVowel (("xyz".toList).map pyLower) = none by decide)

/-- Witness for the amended C8: the one-character-difference shape on
`hao3`. -/
theorem c8_witness :
    ∃ (j : Nat) (orig m : Char), ("hao".toList)[j]? = some orig ∧ m ≠ orig ∧
      m = (if pyIsUpper orig then pyUpper (specMark (pyLower orig) 3)
           else specMark (pyLower orig) 3) ∧
      convertSyllable ("hao".toList ++ [digitChar 3]) = some (("hao".toList).set j m) :=
  c8_tone_shape.2.1 "hao".toList (by decide) (by decide)
    ⟨'a', by decide, by decide⟩ 3 (by decide) (by decide)

/-- Witness for the amended C9: stripping inverts conversion on `hao3`. -/
theorem c9_witness :
    convertSyllable ("hao".toList ++ ['3']) = some "hǎo".toList ∧
    stripTones "hǎo".toList = "hao".toList := by
  refine ⟨by decide, ?_⟩
  exact c9_strip_roundtrip "hao".toList (by decide) (by decide) '3' (by decide)
    "hǎo".toList (show convertSyllable ("hao".toList ++ ['3']) = some "hǎo".toList by decide)

end Cedict
